import Mathlib

/-!
Verification of the LLM chat relay service (Go sources under `internal/`).

The development shallowly embeds the conversation store
(`internal/storage/memory_store.go`), request validation
(`internal/service/validate_message.go`), the chat relay
(`internal/service/chat_service.go`), the SSE stream scanner
(`internal/llm/groq_request.go`) and the token-count cache key
(`getCacheKey` in `internal/storage`, backed by `crypto/sha256`,
`encoding/hex` and `encoding/json`), and proves or refutes the frozen
claims about them.

Go machine integers are modelled as `Int` (for `maxExchanges`, which the
code compares against 0) or `Nat` (for indices and counts that the code
keeps non-negative); byte strings are modelled as `List Nat`.
-/

/-- `storage.Message`: a chat message with a role and content. -/
structure Message where
  role : String
  content : String
deriving DecidableEq, Repr

/-- Shorthand for a user message (used in concrete scenarios). -/
def mkU (c : String) : Message := ⟨"user", c⟩

/-- Shorthand for an assistant message (used in concrete scenarios). -/
def mkA (c : String) : Message := ⟨"assistant", c⟩

/-- `messages[i].Role` as an `Option`: `some` exactly when `i` is in bounds. -/
def roleAt (ms : List Message) (i : Nat) : Option String :=
  (ms[i]?).map Message.role

/-- 1 when index `i` starts a complete exchange (`messages[i].Role == "user"`
and `i+1 < len && messages[i+1].Role == "assistant"`), else 0. -/
def pairFlag (ms : List Message) (i : Nat) : Nat :=
  if roleAt ms i = some "user" ∧ roleAt ms (i + 1) = some "assistant" then 1 else 0

/-- Number of indices `j < n` that start a complete exchange. -/
def fwdCount (ms : List Message) : Nat → Nat
  | 0 => 0
  | n + 1 => fwdCount ms n + pairFlag ms n

/-- Total number of complete user/assistant exchanges in a sequence
(the count the spec describes: indices `i` with a user turn at `i` and an
assistant turn at `i+1`). -/
def exchangeTotal (ms : List Message) : Nat :=
  fwdCount ms ms.length

/-- The body of the backward loop of `countExchanges` in
`internal/storage/memory_store.go`, processing indices `i, i-1, ..., 0`.
The `break` on an unmatched trailing user message can only fire at
`i == len(messages)-1`, the first iteration, so it yields 0 there. -/
def countLoop (ms : List Message) : Nat → Nat
  | 0 =>
    if roleAt ms 0 = some "user" ∧ roleAt ms 1 = some "assistant" then 1 else 0
  | i + 1 =>
    if roleAt ms (i + 1) = some "user" then
      if roleAt ms (i + 2) = some "assistant" then 1 + countLoop ms i
      else if i + 1 = ms.length - 1 then 0
      else countLoop ms i
    else countLoop ms i

/-- `countExchanges` from `internal/storage/memory_store.go`: scan from the
end counting complete exchanges, breaking on a trailing unmatched user
message. -/
def countExchanges (ms : List Message) : Nat :=
  match ms with
  | [] => 0
  | _ => countLoop ms (ms.length - 1)

/-- The forward loop of `findStartIndex`: at index `i` with `kept` complete
exchanges already seen, return `i` as soon as `kept` reaches
`exchangeCount - exchangesToKeep + 1` (the `target`), else 0 at loop end.
The recursion is driven by the number `fuel = len(messages) - i` of
remaining iterations, so that `fuel = 0` is exactly the loop's exit
condition `i >= len(messages)`. -/
def findStartLoop (ms : List Message) (target : Int) : Nat → Nat → Int → Nat
  | 0, _, _ => 0
  | fuel + 1, i, kept =>
    if roleAt ms i = some "user" ∧ roleAt ms (i + 1) = some "assistant" then
      if kept + 1 = target then i
      else findStartLoop ms target fuel (i + 1) (kept + 1)
    else findStartLoop ms target fuel (i + 1) kept

/-- `findStartIndex` from `internal/storage/memory_store.go`: the starting
index that keeps the last `exchangesToKeep` exchanges. -/
def findStartIndex (ms : List Message) (exchangeCount exchangesToKeep : Int) : Nat :=
  findStartLoop ms (exchangeCount - exchangesToKeep + 1) ms.length 0 0

/-- `trimToMaxExchanges` from `internal/storage/memory_store.go`, as a pure
function of the stored slice: no-op when `maxExchanges <= 0`, else drop the
prefix before `findStartIndex` whenever `countExchanges` exceeds
`maxExchanges`. -/
def trimToMaxExchanges (maxExchanges : Int) (ms : List Message) : List Message :=
  if maxExchanges ≤ 0 then ms
  else
    let exchangeCount := countExchanges ms
    if (exchangeCount : Int) > maxExchanges then
      ms.drop (findStartIndex ms (exchangeCount : Int) maxExchanges)
    else ms

/-- `MemoryStore.AddMessage`: append, then trim. -/
def addMessage (maxExchanges : Int) (ms : List Message) (msg : Message) : List Message :=
  trimToMaxExchanges maxExchanges (ms ++ [msg])

/-- The store contents after a sequence of `AddMessage` calls starting from
the empty store created by `NewMemoryStore`. -/
def runStore (maxExchanges : Int) (inputs : List Message) : List Message :=
  inputs.foldl (addMessage maxExchanges) []

/-- A sequence made of complete user/assistant exchanges only: each pair
`(u, a)` contributes a user turn with content `u` followed by an assistant
turn with content `a`. -/
def exchangeList (es : List (String × String)) : List Message :=
  es.flatMap (fun p => [⟨"user", p.1⟩, ⟨"assistant", p.2⟩])

/-! ### Error taxonomy (`internal/error/types.go`) -/

/-- `error.ErrorType`: the classification carried by an `AppError`. -/
inductive ErrorType where
  | validation
  | timeout
  | llm
  | rateLimit
  | internalErr
  | notFound
  | unauthorized
deriving DecidableEq, Repr

/-- `error.AppError`: a classified application error. The wrapped Go error
chain is modelled by the message text alone. -/
structure AppError where
  errType : ErrorType
  message : String
  statusCode : Nat
deriving DecidableEq, Repr

/-- `error.NewValidationError` (HTTP 400). -/
def newValidationError (message : String) : AppError :=
  ⟨.validation, message, 400⟩

/-- `error.NewRateLimitError` (HTTP 429). -/
def newRateLimitError (message : String) : AppError :=
  ⟨.rateLimit, message, 429⟩

/-- `error.NewTimeoutError` (HTTP 504). -/
def newTimeoutError (message : String) : AppError :=
  ⟨.timeout, message, 504⟩

/-- Wrapping by `fmt.Errorf("... %w", err)` prepends context text and keeps
the wrapped classification reachable through `errors.As`. -/
def wrapErr (context : String) (e : AppError) : AppError :=
  ⟨e.errType, context ++ e.message, e.statusCode⟩

/-- Decidable equality for `Except` results, used to evaluate concrete
relay runs in witnesses. -/
instance {e a : Type} [DecidableEq e] [DecidableEq a] :
    DecidableEq (Except e a) := fun x y =>
  match x, y with
  | .error u, .error v =>
    if h : u = v then .isTrue (by rw [h]) else .isFalse (fun hc => by cases hc; exact h rfl)
  | .error _, .ok _ => .isFalse (fun hc => by cases hc)
  | .ok _, .error _ => .isFalse (fun hc => by cases hc)
  | .ok u, .ok v =>
    if h : u = v then .isTrue (by rw [h]) else .isFalse (fun hc => by cases hc; exact h rfl)

/-! ### Request validation (`internal/service/validate_message.go`) -/

/-- The per-message loop of `ChatRequest.Validate`: for each message, in
order, reject a role outside user/assistant, then reject empty content. -/
def validateLoop : List Message → Nat → Option AppError
  | [], _ => none
  | m :: rest, i =>
    if ¬ (m.role = "user") ∧ ¬ (m.role = "assistant") then
      some (newValidationError
        ("invalid role '" ++ m.role ++ "' at index " ++ toString i ++
          ": must be 'user' or 'assistant'"))
    else if m.content = "" then
      some (newValidationError ("empty content at index " ++ toString i))
    else validateLoop rest (i + 1)

/-- `ChatRequest.Validate`: empty list, bad role, empty content, and
last-message-not-user checks, in the order the code performs them. -/
def validate (msgs : List Message) : Option AppError :=
  if msgs.length = 0 then some (newValidationError "messages cannot be empty")
  else
    match validateLoop msgs 0 with
    | some e => some e
    | none =>
      let lastMsg := msgs.getLastD ⟨"", ""⟩
      if ¬ (lastMsg.role = "user") then
        some (newValidationError
          ("last message must be from user, got '" ++ lastMsg.role ++ "'"))
      else none

/-! ### Token cache interaction (`internal/service/chat_service.go`) -/

/-- One request's worth of outcomes of the optional cache store
(`storage.CacheStore`): result of `GetTokenCount`, of `CountTokens`, and
of `SetTokenCount`. A `Unit` error stands for an opaque Go error. -/
structure CacheOracle where
  getTokenCount : Except Unit (Nat × Bool)
  countTokens : Except Unit Nat
  setTokenCount : Except Unit Unit

/-- A record of one cache call made by the relay, with its outcome. -/
inductive CacheOp where
  | get (result : Except Unit (Nat × Bool))
  | count (result : Except Unit Nat)
  | set (result : Except Unit Unit)

/-- The token-count cache block of `ProcessChat`/`ProcessChatStream`:
skipped when the cache store is nil; on a successful `Get` with a hit the
value is discarded; on a clean miss the count is computed and, when that
succeeds, written back; every error is swallowed. The returned list is
the trace of calls performed. -/
def cacheTokenCheck : Option CacheOracle → List CacheOp
  | none => []
  | some c =>
    match c.getTokenCount with
    | .error u => [.get (.error u)]
    | .ok (cnt, true) => [.get (.ok (cnt, true))]
    | .ok (cnt, false) =>
      match c.countTokens with
      | .error u => [.get (.ok (cnt, false)), .count (.error u)]
      | .ok tc => [.get (.ok (cnt, false)), .count (.ok tc), .set c.setTokenCount]

/-! ### Backend response shapes (`internal/llm/groq_client.go`) -/

/-- `llm.Delta`: incremental content in streaming. -/
structure Delta where
  role : String
  content : String
deriving DecidableEq, Repr

/-- `llm.Choice`: one choice of a response chunk. `llm.Message` has the
same two fields as `storage.Message`, so `Message` is reused for it. -/
structure Choice where
  index : Nat
  delta : Option Delta
  message : Option Message
  finishReason : String
deriving DecidableEq, Repr

/-- `llm.ChatResponse`: a streaming response chunk. -/
structure ChatResponse where
  id : String
  object : String
  created : Int
  model : String
  choices : List Choice
deriving DecidableEq, Repr

/-! ### The SSE stream scanner (`internal/llm/groq_request.go`) -/

/-- What one iteration of the `ScanStream` loop does with a line short of
touching the builder or the sink: skip it, stop at the `[DONE]` marker, or
produce a content fragment. -/
inductive LineStep where
  | skip
  | done
  | tok (content : String)

/-- The body of the `ScanStream` loop for one line: empty lines are
skipped, an SSE `"data: "` tag is stripped, `[DONE]` stops the scan, a
line that fails JSON decoding (`parse` returns `none`) or decodes with no
choices is skipped, and otherwise the delta content (falling back to the
message content) is the fragment, skipped when empty. -/
def lineStep (parse : String → Option ChatResponse) (line : String) : LineStep :=
  if line.length = 0 then .skip
  else
    let line1 :=
      if "data: ".data.isPrefixOf line.data then String.mk (line.data.drop 6) else line
    if line1 = "[DONE]" then .done
    else
      match parse line1 with
      | none => .skip
      | some resp =>
        match resp.choices with
        | [] => .skip
        | choice :: _ =>
          let content :=
            match choice.delta with
            | some d => d.content
            | none =>
              match choice.message with
              | some m => m.content
              | none => ""
          if content = "" then .skip else .tok content

/-- `ScanStream` from `internal/llm/groq_request.go`, with the scanner's
lines, the JSON decoding of a line (`json.Unmarshal`, an external
library, given as the oracle `parse`), and the caller's token sink
threaded through an explicit state `s`. The accumulated text `acc`
models the `fullResponse strings.Builder`; content is written to the
builder before the sink is invoked, and a sink error aborts the scan and
discards the builder, exactly as the code does. -/
def scanStream {σ : Type} (parse : String → Option ChatResponse)
    (sink : σ → String → Except AppError σ) :
    List String → String → σ → Except (AppError × σ) (String × σ)
  | [], acc, s => .ok (acc, s)
  | line :: rest, acc, s =>
    match lineStep parse line with
    | .skip => scanStream parse sink rest acc s
    | .done => .ok (acc, s)
    | .tok content =>
      match sink s content with
      | .error e => .error (e, s)
      | .ok s1 => scanStream parse sink rest (acc ++ content) s1

/-- The fragments `ScanStream` hands to the sink for given lines and JSON
decoding, in delivery order (a pure specification-side projection of the
same traversal). -/
def streamFragments (parse : String → Option ChatResponse) : List String → List String
  | [] => []
  | line :: rest =>
    match lineStep parse line with
    | .skip => streamFragments parse rest
    | .done => []
    | .tok content => content :: streamFragments parse rest

/-- Concatenation of a list of fragments (what `strings.Builder` holds). -/
def concatAll : List String → String
  | [] => ""
  | f :: fs => f ++ concatAll fs

/-- Driving a sink over a fragment list, stopping at the first error. -/
def foldSink {σ : Type} (sink : σ → String → Except AppError σ) :
    σ → List String → Except AppError σ
  | s, [] => .ok s
  | s, f :: fs =>
    match sink s f with
    | .error e => .error e
    | .ok s1 => foldSink sink s1 fs

/-! ### The relay (`internal/service/chat_service.go`) -/

/-- `ChatService.ProcessChat`. The backend call
(`llm.Client.Chat(messages, maxTokens)`) is an oracle from the outbound
message list to a classified result; the history store is the explicit
`store` list; the returned triple is (result, new store contents, cache
trace). The request's last message is read with a default that is never
used, since the code only reaches it after validation ensures the list is
nonempty. -/
def processChat (maxEx : Int) (store : List Message) (req : List Message)
    (backend : List Message → Except AppError String)
    (cache : Option CacheOracle) :
    Except AppError String × List Message × List CacheOp :=
  match validate req with
  | some e => (.error (wrapErr "validation error: " e), store, [])
  | none =>
    let history := store
    let newUserMsg := req.getLastD ⟨"", ""⟩
    let store1 := addMessage maxEx store newUserMsg
    let llmMessages := history ++ [newUserMsg]
    let trace := cacheTokenCheck cache
    match backend llmMessages with
    | .error e => (.error (wrapErr "groq API error: " e), store1, trace)
    | .ok response =>
      (.ok response, addMessage maxEx store1 ⟨"assistant", response⟩, trace)

/-- `GroqClient.StreamChat`: `DoRequest` either fails (classified) or
yields the response body's lines, which `ScanStream` consumes; request and
scan errors are wrapped with their respective context texts. -/
def streamChat {σ : Type} (parse : String → Option ChatResponse)
    (doRequest : List Message → Except AppError (List String))
    (msgs : List Message) (sink : σ → String → Except AppError σ) (s0 : σ) :
    Except (AppError × σ) (String × σ) :=
  match doRequest msgs with
  | .error e => .error (wrapErr "failed to send request: " e, s0)
  | .ok lines =>
    match scanStream parse sink lines "" s0 with
    | .error (e, s1) => .error (wrapErr "failed to scan stream: " e, s1)
    | .ok (full, s1) => .ok (full, s1)

/-- `ChatService.ProcessChatStream`: identical to `ProcessChat` except the
backend call streams through the caller's sink. -/
def processChatStream {σ : Type} (maxEx : Int) (store : List Message)
    (req : List Message) (parse : String → Option ChatResponse)
    (doRequest : List Message → Except AppError (List String))
    (cache : Option CacheOracle)
    (sink : σ → String → Except AppError σ) (s0 : σ) :
    Except AppError String × List Message × List CacheOp × σ :=
  match validate req with
  | some e => (.error (wrapErr "validation error: " e), store, [], s0)
  | none =>
    let history := store
    let newUserMsg := req.getLastD ⟨"", ""⟩
    let store1 := addMessage maxEx store newUserMsg
    let llmMessages := history ++ [newUserMsg]
    let trace := cacheTokenCheck cache
    match streamChat parse doRequest llmMessages sink s0 with
    | .error (e, s1) => (.error (wrapErr "groq API error: " e), store1, trace, s1)
    | .ok (full, s1) =>
      (.ok full, addMessage maxEx store1 ⟨"assistant", full⟩, trace, s1)

/-- The concrete `parse` oracle of the witness scenario: the two data
lines decode to chunks whose first choice carries delta content `"He"`
and `"llo"` respectively; everything else fails to decode. -/
def demoParse (line : String) : Option ChatResponse :=
  if line = "chunk-He" then
    some ⟨"id1", "chat.completion.chunk", 0, "m", [⟨0, some ⟨"", "He"⟩, none, ""⟩]⟩
  else if line = "chunk-llo" then
    some ⟨"id1", "chat.completion.chunk", 0, "m", [⟨0, some ⟨"", "llo"⟩, none, ""⟩]⟩
  else none

/-- The body lines of the witness scenario, as the scanner would see them:
two SSE data lines, a blank separator, and the terminator. -/
def demoLines : List String :=
  ["data: chunk-He", "", "data: chunk-llo", "data: [DONE]"]

/-- A sink that records every fragment it receives, in order. -/
def recordSink (s : List String) (f : String) : Except AppError (List String) :=
  .ok (s ++ [f])

/-! ### Claim C3: the history structure invariant -/

/-- Modelled from the spec's invariant wording: the sequence, when
non-empty, is a concatenation of exchanges — a user turn immediately
followed by an assistant turn — optionally followed by one trailing
unmatched user turn. -/
def wellFormedSpec : List Message → Bool
  | [] => true
  | [m] => m.role == "user"
  | a :: b :: t => a.role == "user" && (b.role == "assistant") && wellFormedSpec t

/-- Modelled from the bounded-store claim's wording: the history is a
concatenation of at most `N` complete user/assistant exchanges, optionally
followed by a single trailing unmatched user turn. -/
def specBoundedHistory (N : Int) : List Message → Bool
  | [] => true
  | [m] => m.role == "user"
  | a :: b :: t =>
    a.role == "user" && (b.role == "assistant") && decide (0 < N) &&
      specBoundedHistory (N - 1) t

/-- The structure the code actually maintains: a concatenation of blocks,
each either a complete user/assistant exchange or a lone (orphaned) user
turn; orphaned user turns may appear anywhere, not only at the end. -/
def blockWF : List Message → Bool
  | [] => true
  | [m] => m.role == "user"
  | a :: b :: t =>
    a.role == "user" && (if b.role == "assistant" then blockWF t else blockWF (b :: t))

/-- Store states reachable from the empty store through complete
`ProcessChat` and `ProcessChatStream` requests, with arbitrary backends,
caches, sinks and outcomes — including failing ones. -/
inductive Reachable (maxEx : Int) : List Message → Prop where
  | empty : Reachable maxEx []
  | chatStep (req : List Message) (backend : List Message → Except AppError String)
      (cache : Option CacheOracle) {s : List Message} :
      Reachable maxEx s →
      Reachable maxEx (processChat maxEx s req backend cache).2.1
  | streamStep (σ : Type) (req : List Message)
      (parse : String → Option ChatResponse)
      (doRequest : List Message → Except AppError (List String))
      (cache : Option CacheOracle) (sink : σ → String → Except AppError σ)
      (s0 : σ) {s : List Message} :
      Reachable maxEx s →
      Reachable maxEx (processChatStream maxEx s req parse doRequest cache sink s0).2.1

/-- A backend whose call fails with a rate-limit classification. -/
def demoFailBackend : List Message → Except AppError String :=
  fun _ => .error (newRateLimitError "LLM API rate limit exceeded")

/-- A backend whose call succeeds with the fixed response `"c"`. -/
def demoOkBackend : List Message → Except AppError String :=
  fun _ => .ok "c"

/-! ### Claim C8: the token-cache key (`getCacheKey` in `internal/storage`)

`getCacheKey` JSON-marshals the message slice, hashes it with SHA-256 and
prefixes the lowercase-hex digest with `"token_count:"`. The three external
libraries are embedded: `encoding/json` (struct marshalling with the
default HTML escaping), `crypto/sha256` (FIPS 180-4 over bytes as `Nat`
mod 2^32/2^8) and `encoding/hex`. -/

/-- Truncation to 32 bits. -/
def mask32 (x : Nat) : Nat := x % 4294967296

/-- 32-bit right rotation. -/
def rotr32 (n x : Nat) : Nat := mask32 ((x >>> n) ||| (x <<< (32 - n)))

/-- 32-bit bitwise complement (arguments are kept below 2^32). -/
def not32 (x : Nat) : Nat := 4294967295 - mask32 x

/-- SHA-256 choose function. -/
def ch32 (x y z : Nat) : Nat := (x &&& y) ^^^ (not32 x &&& z)

/-- SHA-256 majority function. -/
def maj32 (x y z : Nat) : Nat := (x &&& y) ^^^ (x &&& z) ^^^ (y &&& z)

/-- SHA-256 big sigma 0. -/
def bigSigma0 (x : Nat) : Nat := rotr32 2 x ^^^ rotr32 13 x ^^^ rotr32 22 x

/-- SHA-256 big sigma 1. -/
def bigSigma1 (x : Nat) : Nat := rotr32 6 x ^^^ rotr32 11 x ^^^ rotr32 25 x

/-- SHA-256 small sigma 0. -/
def smallSigma0 (x : Nat) : Nat := rotr32 7 x ^^^ rotr32 18 x ^^^ (x >>> 3)

/-- SHA-256 small sigma 1. -/
def smallSigma1 (x : Nat) : Nat := rotr32 17 x ^^^ rotr32 19 x ^^^ (x >>> 10)

/-- The 64 SHA-256 round constants. -/
def sha256K : List Nat :=
  [1116352408, 1899447441, 3049323471, 3921009573, 961987163, 1508970993,
   2453635748, 2870763221, 3624381080, 310598401, 607225278, 1426881987,
   1925078388, 2162078206, 2614888103, 3248222580, 3835390401, 4022224774,
   264347078, 604807628, 770255983, 1249150122, 1555081692, 1996064986,
   2554220882, 2821834349, 2952996808, 3210313671, 3336571891, 3584528711,
   113926993, 338241895, 666307205, 773529912, 1294757372, 1396182291,
   1695183700, 1986661051, 2177026350, 2456956037, 2730485921, 2820302411,
   3259730800, 3345764771, 3516065817, 3600352804, 4094571909, 275423344,
   430227734, 506948616, 659060556, 883997877, 958139571, 1322822218,
   1537002063, 1747873779, 1955562222, 2024104815, 2227730452, 2361852424,
   2428436474, 2756734187, 3204031479, 3329325298]

/-- The message length as 8 big-endian bytes. -/
def lenBytes8 (n : Nat) : List Nat :=
  [n / 2 ^ 56 % 256, n / 2 ^ 48 % 256, n / 2 ^ 40 % 256, n / 2 ^ 32 % 256,
   n / 2 ^ 24 % 256, n / 2 ^ 16 % 256, n / 2 ^ 8 % 256, n % 256]

/-- SHA-256 padding: append `0x80`, zero-pad to 56 mod 64, then the
bit length as 8 big-endian bytes. -/
def padMessage (msg : List Nat) : List Nat :=
  let r := (msg.length + 1) % 64
  let zeros := if r ≤ 56 then 56 - r else 56 + 64 - r
  msg ++ [0x80] ++ List.replicate zeros 0 ++ lenBytes8 (msg.length * 8)

/-- The 16 initial schedule words of a 64-byte chunk (big-endian). -/
def chunkWords (chunk : List Nat) : List Nat :=
  (List.range 16).map (fun i =>
    chunk.getD (4 * i) 0 * 2 ^ 24 + chunk.getD (4 * i + 1) 0 * 2 ^ 16 +
    chunk.getD (4 * i + 2) 0 * 2 ^ 8 + chunk.getD (4 * i + 3) 0)

/-- Extending the message schedule by `n` further words. -/
def extendWords (w : List Nat) : Nat → List Nat
  | 0 => w
  | n + 1 =>
    let w1 := extendWords w n
    let t := w1.length
    w1 ++ [mask32 (smallSigma1 (w1.getD (t - 2) 0) + w1.getD (t - 7) 0 +
      smallSigma0 (w1.getD (t - 15) 0) + w1.getD (t - 16) 0)]

/-- The 64-word message schedule of one chunk. -/
def scheduleW (chunk : List Nat) : List Nat := extendWords (chunkWords chunk) 48

/-- The eight 32-bit working variables of the compression function. -/
structure Hash8 where
  a : Nat
  b : Nat
  c : Nat
  d : Nat
  e : Nat
  f : Nat
  g : Nat
  h : Nat
deriving DecidableEq, Repr

/-- One round of the SHA-256 compression function. -/
def compressRound (st : Hash8) (ki wi : Nat) : Hash8 :=
  let t1 := mask32 (st.h + bigSigma1 st.e + ch32 st.e st.f st.g + ki + wi)
  let t2 := mask32 (bigSigma0 st.a + maj32 st.a st.b st.c)
  ⟨mask32 (t1 + t2), st.a, st.b, st.c, mask32 (st.d + t1), st.e, st.f, st.g⟩

/-- Compressing one 64-byte chunk into the running hash. -/
def compressChunk (h0 : Hash8) (chunk : List Nat) : Hash8 :=
  let st := (sha256K.zip (scheduleW chunk)).foldl
    (fun st kw => compressRound st kw.1 kw.2) h0
  ⟨mask32 (h0.a + st.a), mask32 (h0.b + st.b), mask32 (h0.c + st.c),
   mask32 (h0.d + st.d), mask32 (h0.e + st.e), mask32 (h0.f + st.f),
   mask32 (h0.g + st.g), mask32 (h0.h + st.h)⟩

/-- The SHA-256 initial hash value. -/
def initH : Hash8 :=
  ⟨1779033703, 3144134277, 1013904242, 2773480762, 1359893119, 2600822924,
   528734635, 1541459225⟩

/-- Folding the compression function over the padded message's 64-byte
chunks. -/
def processChunks : Hash8 → List Nat → Hash8
  | hs, [] => hs
  | hs, b :: rest =>
    processChunks (compressChunk hs ((b :: rest).take 64)) ((b :: rest).drop 64)
termination_by _ l => l.length
decreasing_by simp [List.length_drop]; omega

/-- A 32-bit word as 4 big-endian bytes. -/
def wordBytes (w : Nat) : List Nat :=
  [w / 2 ^ 24 % 256, w / 2 ^ 16 % 256, w / 2 ^ 8 % 256, w % 256]

/-- SHA-256 of a byte sequence, as its 32 digest bytes. -/
def sha256Bytes (msg : List Nat) : List Nat :=
  let hf := processChunks initH (padMessage msg)
  wordBytes hf.a ++ wordBytes hf.b ++ wordBytes hf.c ++ wordBytes hf.d ++
  wordBytes hf.e ++ wordBytes hf.f ++ wordBytes hf.g ++ wordBytes hf.h

/-- A byte list read as a natural number (little-endian positional). -/
def natOfBytes : List Nat → Nat
  | [] => 0
  | b :: rest => b + 256 * natOfBytes rest

/-- The digest packed into the finite type of 256-bit values; used to
show that distinct inputs must collide somewhere. -/
def sha256Fin (msg : List Nat) : Fin (2 ^ 256) :=
  ⟨natOfBytes (sha256Bytes msg) % 2 ^ 256, Nat.mod_lt _ (by norm_num)⟩

/-- The lowercase hex digit table of `encoding/hex`. -/
def hexDigitChar (n : Nat) : Char :=
  "0123456789abcdef".data.getD n '0'

/-- The value of a lowercase hex digit (0 on other characters). -/
def hexVal (c : Char) : Nat :=
  if c = '0' then 0 else if c = '1' then 1 else if c = '2' then 2
  else if c = '3' then 3 else if c = '4' then 4 else if c = '5' then 5
  else if c = '6' then 6 else if c = '7' then 7 else if c = '8' then 8
  else if c = '9' then 9 else if c = 'a' then 10 else if c = 'b' then 11
  else if c = 'c' then 12 else if c = 'd' then 13 else if c = 'e' then 14
  else if c = 'f' then 15 else 0

/-- `hex.EncodeToString`: two lowercase hex digits per byte, high nibble
first. -/
def hexEncode (bytes : List Nat) : String :=
  String.mk (bytes.flatMap (fun b => [hexDigitChar (b / 16), hexDigitChar (b % 16)]))

/-- UTF-8 encoding of one character, as bytes. -/
def utf8Bytes (c : Char) : List Nat :=
  let n := c.toNat
  if n < 128 then [n]
  else if n < 2048 then [192 + n / 64, 128 + n % 64]
  else if n < 65536 then [224 + n / 4096, 128 + n / 64 % 64, 128 + n % 64]
  else [240 + n / 262144, 128 + n / 4096 % 64, 128 + n / 64 % 64, 128 + n % 64]

/-- UTF-8 encoding of a character sequence. -/
def charsBytes (cs : List Char) : List Nat := cs.flatMap utf8Bytes

/-- A `\uXXXX` escape sequence (`n < 0x10000`). -/
def uEscape (n : Nat) : List Char :=
  ['\\', 'u', hexDigitChar (n / 4096 % 16), hexDigitChar (n / 256 % 16),
   hexDigitChar (n / 16 % 16), hexDigitChar (n % 16)]

/-- `encoding/json` string escaping with the default HTML escaping: quote
and backslash get a backslash escape, newline/carriage-return/tab their
short forms, other control characters and the HTML characters `<`, `>`,
`&` a `\u00XX` escape, U+2028/U+2029 a `\u202X` escape, and everything
else is emitted verbatim. -/
def escapeChar (c : Char) : List Char :=
  if c = '"' then ['\\', '"']
  else if c = '\\' then ['\\', '\\']
  else if c = '\n' then ['\\', 'n']
  else if c = '\r' then ['\\', 'r']
  else if c = '\t' then ['\\', 't']
  else if c.toNat < 32 ∨ c = '<' ∨ c = '>' ∨ c = '&' then uEscape c.toNat
  else if c.toNat = 8232 ∨ c.toNat = 8233 then uEscape c.toNat
  else [c]

/-- Escaping a whole string body. -/
def escapeChars (cs : List Char) : List Char := cs.flatMap escapeChar

/-- The literal `{"role":"` opening a marshalled `storage.Message`. -/
def roleTag : List Char :=
  ['\x7b', '"', 'r', 'o', 'l', 'e', '"', ':', '"']

/-- The literal `","content":"` between the two fields. -/
def midTag : List Char :=
  ['"', ',', '"', 'c', 'o', 'n', 't', 'e', 'n', 't', '"', ':', '"']

/-- `json.Marshal` of one `storage.Message` (fields in struct order, with
their `role`/`content` tags). -/
def marshalMessage (m : Message) : List Char :=
  roleTag ++ escapeChars m.role.data ++ midTag ++
    escapeChars m.content.data ++ ['"', '\x7d']

/-- The comma-separated items of a marshalled slice, with the closing
bracket. -/
def marshalItems : List Message → List Char
  | [] => [']']
  | [m] => marshalMessage m ++ [']']
  | m :: m2 :: rest => marshalMessage m ++ ',' :: marshalItems (m2 :: rest)

/-- `json.Marshal` of a `[]storage.Message` value. -/
def marshalMessages (ms : List Message) : List Char := '[' :: marshalItems ms

/-- `getCacheKey` from the cache store: the fixed namespace tag followed
by the hex SHA-256 digest of the JSON serialization of the messages. -/
def getCacheKey (messages : List Message) : String :=
  "token_count:" ++ hexEncode (sha256Bytes (charsBytes (marshalMessages messages)))

/-- Consuming an expected literal from the front of the input. -/
def expectChars : List Char → List Char → Option (List Char)
  | [], s => some s
  | _ :: _, [] => none
  | p :: ps, c :: cs => if c = p then expectChars ps cs else none

/-- Parsing a JSON string body after its opening quote: returns the
decoded characters and the input after the closing quote. Inverse of
`escapeChars` on marshalled output. -/
def parseQuoted : List Char → Option (List Char × List Char)
  | [] => none
  | c :: t =>
    if c = '"' then some ([], t)
    else if c = '\\' then
      match t with
      | [] => none
      | e :: t1 =>
        if e = '"' then (fun p => ('"' :: p.1, p.2)) <$> parseQuoted t1
        else if e = '\\' then (fun p => ('\\' :: p.1, p.2)) <$> parseQuoted t1
        else if e = 'n' then (fun p => ('\n' :: p.1, p.2)) <$> parseQuoted t1
        else if e = 'r' then (fun p => ('\r' :: p.1, p.2)) <$> parseQuoted t1
        else if e = 't' then (fun p => ('\t' :: p.1, p.2)) <$> parseQuoted t1
        else if e = 'u' then
          match t1 with
          | d1 :: d2 :: d3 :: d4 :: t2 =>
            (fun p => (Char.ofNat
              (4096 * hexVal d1 + 256 * hexVal d2 + 16 * hexVal d3 + hexVal d4) ::
                p.1, p.2)) <$> parseQuoted t2
          | _ => none
        else none
    else (fun p => (c :: p.1, p.2)) <$> parseQuoted t

/-- Parsing one marshalled `storage.Message`. -/
def parseMessage (s : List Char) : Option (Message × List Char) :=
  match expectChars roleTag s with
  | none => none
  | some s1 =>
    match parseQuoted s1 with
    | none => none
    | some (roleCs, s2) =>
      match expectChars (midTag.drop 1) s2 with
      | none => none
      | some s3 =>
        match parseQuoted s3 with
        | none => none
        | some (contentCs, s4) =>
          match expectChars ['\x7d'] s4 with
          | none => none
          | some s5 => some (⟨String.mk roleCs, String.mk contentCs⟩, s5)

/-- Parsing the items of a marshalled slice (fuel-driven). -/
def parseItems : Nat → List Char → Option (List Message × List Char)
  | 0, _ => none
  | fuel + 1, s =>
    match s with
    | [] => none
    | c :: t =>
      if c = ']' then some ([], t)
      else
        match parseMessage (c :: t) with
        | none => none
        | some (m, s1) =>
          match s1 with
          | [] => none
          | c1 :: s2 =>
            if c1 = ',' then
              match parseItems fuel s2 with
              | none => none
              | some (ms, s3) => some (m :: ms, s3)
            else if c1 = ']' then some ([m], s2)
            else none

/-- Parsing a marshalled `[]storage.Message` value. -/
def jsonParse (s : List Char) : Option (List Message × List Char) :=
  match s with
  | [] => none
  | c :: t => if c = '[' then parseItems (t.length + 1) t else none

example : countExchanges [mkU "a", mkA "b"] = 1 := by decide

example : countExchanges [mkU "a", mkA "b", mkU "c"] = 0 := by decide

example : countExchanges [mkU "a", mkA "b", mkU "c", mkA "d"] = 2 := by decide

example :
    runStore 2 [mkU "a", mkA "b", mkU "c", mkA "d", mkU "e", mkA "f"] =
      [mkU "c", mkA "d", mkU "e", mkA "f"] := by decide

example :
    trimToMaxExchanges 1 [mkU "a", mkA "b", mkU "c", mkA "d", mkU "e"] =
      [mkU "a", mkA "b", mkU "c", mkA "d", mkU "e"] := by decide

/-! ### Index-level facts about `pairFlag` and `fwdCount` -/

lemma roleAt_of_le {ms : List Message} {i : Nat} (h : ms.length ≤ i) :
    roleAt ms i = none := by
  simp [roleAt, List.getElem?_eq_none h]

lemma roleAt_cons_succ (m : Message) (ms : List Message) (i : Nat) :
    roleAt (m :: ms) (i + 1) = roleAt ms i := by
  simp [roleAt]

lemma roleAt_cons_zero (m : Message) (ms : List Message) :
    roleAt (m :: ms) 0 = some m.role := by
  simp [roleAt]

lemma roleAt_append_left {ms : List Message} (ts : List Message) {i : Nat}
    (h : i < ms.length) : roleAt (ms ++ ts) i = roleAt ms i := by
  simp [roleAt, List.getElem?_append_left h]

lemma roleAt_concat_length (ms : List Message) (m : Message) :
    roleAt (ms ++ [m]) ms.length = some m.role := by
  simp [roleAt]

lemma roleAt_drop (ms : List Message) (r j : Nat) :
    roleAt (ms.drop r) j = roleAt ms (r + j) := by
  simp [roleAt, List.getElem?_drop]

lemma pairFlag_cons (m : Message) (ms : List Message) (i : Nat) :
    pairFlag (m :: ms) (i + 1) = pairFlag ms i := by
  simp [pairFlag, roleAt_cons_succ]

lemma pairFlag_drop (ms : List Message) (r j : Nat) :
    pairFlag (ms.drop r) j = pairFlag ms (r + j) := by
  simp [pairFlag, roleAt_drop, Nat.add_assoc]

lemma pairFlag_of_le {ms : List Message} {i : Nat} (h : ms.length ≤ i) :
    pairFlag ms i = 0 := by
  simp [pairFlag, roleAt_of_le h]

lemma pairFlag_le_one (ms : List Message) (i : Nat) : pairFlag ms i ≤ 1 := by
  unfold pairFlag; split <;> simp

lemma pairFlag_append_left {ms : List Message} (ts : List Message) {j : Nat}
    (h : j + 1 < ms.length) : pairFlag (ms ++ ts) j = pairFlag ms j := by
  simp [pairFlag, roleAt_append_left ts (Nat.lt_of_succ_lt h), roleAt_append_left ts h]

lemma fwdCount_congr {ms₁ ms₂ : List Message} (n : Nat)
    (h : ∀ j, j < n → pairFlag ms₁ j = pairFlag ms₂ j) :
    fwdCount ms₁ n = fwdCount ms₂ n := by
  induction n with
  | zero => rfl
  | succ n ih =>
    simp only [fwdCount]
    rw [ih (fun j hj => h j (Nat.lt_succ_of_lt hj)), h n (Nat.lt_succ_self n)]

lemma fwdCount_drop (ms : List Message) (r : Nat) :
    ∀ n, fwdCount ms (r + n) = fwdCount ms r + fwdCount (ms.drop r) n := by
  intro n
  induction n with
  | zero => rfl
  | succ n ih =>
    have : r + (n + 1) = (r + n) + 1 := by omega
    rw [this]
    simp only [fwdCount]
    rw [ih, pairFlag_drop]
    omega

/-- Total exchange count of a suffix: dropping a prefix of length `r` keeps
exactly the exchanges whose user index is `>= r`. -/
lemma exchangeTotal_drop_add (ms : List Message) (r : Nat) (h : r ≤ ms.length) :
    exchangeTotal ms = fwdCount ms r + exchangeTotal (ms.drop r) := by
  unfold exchangeTotal
  have hlen : (ms.drop r).length = ms.length - r := List.length_drop r ms
  rw [hlen, ← fwdCount_drop ms r (ms.length - r)]
  congr 1
  omega

/-! ### The backward counting loop -/

lemma countLoop_eq_fwdCount (ms : List Message) :
    ∀ i, i + 1 < ms.length → countLoop ms i = fwdCount ms (i + 1) := by
  intro i
  induction i with
  | zero =>
    intro _
    simp only [countLoop, fwdCount, pairFlag, Nat.zero_add]
  | succ i ih =>
    intro h
    have hi : i + 1 < ms.length := Nat.lt_of_succ_lt h
    simp only [countLoop]
    by_cases hu : roleAt ms (i + 1) = some "user"
    · by_cases ha : roleAt ms (i + 2) = some "assistant"
      · simp only [hu, ha, if_true, if_pos]
        rw [ih hi]
        have : pairFlag ms (i + 1) = 1 := by simp [pairFlag, hu, ha]
        simp only [fwdCount, this]
        omega
      · have hne : ¬ (i + 1 = ms.length - 1) := by omega
        simp only [hu, ha, if_true, if_false, hne]
        rw [ih hi]
        have : pairFlag ms (i + 1) = 0 := by
          simp only [pairFlag, ite_eq_right_iff]
          intro hc
          exact absurd hc.2 ha
        simp only [fwdCount, this]
        omega
    · simp only [hu, if_false]
      rw [ih hi]
      have : pairFlag ms (i + 1) = 0 := by
        simp only [pairFlag, ite_eq_right_iff]
        intro hc
        exact absurd hc.1 hu
      simp only [fwdCount, this]
      omega

/-- When the final stored message is not a user turn, the backward scan
counts every complete exchange. -/
lemma countExchanges_eq_of_last_ne {ms : List Message} (hne : ms ≠ [])
    (h : roleAt ms (ms.length - 1) ≠ some "user") :
    countExchanges ms = exchangeTotal ms := by
  obtain ⟨n, hn⟩ : ∃ n, ms.length = n + 1 := by
    cases ms with
    | nil => exact absurd rfl hne
    | cons m t => exact ⟨t.length, rfl⟩
  have hms : countExchanges ms = countLoop ms (ms.length - 1) := by
    cases ms with
    | nil => exact absurd rfl hne
    | cons m t => rfl
  have hn1 : ms.length - 1 = n := by omega
  rw [hms, hn1, exchangeTotal, hn]
  rw [hn1] at h
  cases n with
  | zero =>
    have hpf : pairFlag ms 0 = 0 := by
      rw [pairFlag, if_neg]
      intro hc
      exact h hc.1
    simp only [countLoop, fwdCount, hpf]
    rw [if_neg]
    intro hc
    exact h hc.1
  | succ k =>
    have hk : k + 1 < ms.length := by omega
    have hpf : pairFlag ms (k + 1) = 0 := by
      rw [pairFlag, if_neg]
      intro hc
      exact h hc.1
    simp only [countLoop, h, if_false, fwdCount, hpf]
    rw [countLoop_eq_fwdCount ms k hk]
    simp [fwdCount]

/-- When the final stored message is a user turn, the backward scan breaks
immediately and reports zero complete exchanges. -/
lemma countExchanges_eq_zero_of_last_user {ms : List Message}
    (h : roleAt ms (ms.length - 1) = some "user") :
    countExchanges ms = 0 := by
  cases hms : ms with
  | nil => rfl
  | cons m t =>
    subst hms
    show countLoop (m :: t) ((m :: t).length - 1) = 0
    have hn1 : (m :: t).length - 1 = t.length := by simp
    rw [hn1] at h ⊢
    cases ht : t.length with
    | zero =>
      rw [ht] at h
      have h1 : roleAt (m :: t) 1 = none := by
        apply roleAt_of_le
        simp [ht]
      simp only [countLoop, h1]
      rw [if_neg]
      simp
    | succ k =>
      rw [ht] at h
      have h2 : roleAt (m :: t) (k + 2) = none := by
        apply roleAt_of_le
        simp [ht]
      have hlast : k + 1 = (m :: t).length - 1 := by simp [ht]
      simp only [countLoop, h, h2, if_true, if_false]
      rw [if_neg (by simp), if_pos hlast]

lemma countExchanges_le_exchangeTotal (ms : List Message) :
    countExchanges ms ≤ exchangeTotal ms := by
  by_cases hne : ms = []
  · subst hne; rfl
  · by_cases h : roleAt ms (ms.length - 1) = some "user"
    · rw [countExchanges_eq_zero_of_last_user h]; exact Nat.zero_le _
    · rw [countExchanges_eq_of_last_ne hne h]

/-! ### The forward search loop of `findStartIndex` -/

/-- Loop invariant of `findStartLoop`: entering iteration `i` with
`kept = fwdCount ms i` exchanges already counted, and with the target
reachable (`target <= exchangeTotal ms`), the loop stops at the user index
of the `target`-th complete exchange. -/
lemma findStartLoop_spec (ms : List Message) (target : Int) :
    ∀ (fuel i : Nat), fuel + i = ms.length →
      (fwdCount ms i : Int) < target →
      target ≤ (exchangeTotal ms : Int) →
      pairFlag ms (findStartLoop ms target fuel i (fwdCount ms i)) = 1 ∧
      (fwdCount ms (findStartLoop ms target fuel i (fwdCount ms i)) : Int) = target - 1 ∧
      findStartLoop ms target fuel i (fwdCount ms i) < ms.length := by
  intro fuel
  induction fuel with
  | zero =>
    intro i hfi hlt hle
    exfalso
    have : i = ms.length := by omega
    subst this
    rw [exchangeTotal] at hle
    omega
  | succ fuel ih =>
    intro i hfi hlt hle
    have hilt : i < ms.length := by omega
    by_cases hp : roleAt ms i = some "user" ∧ roleAt ms (i + 1) = some "assistant"
    · have hflag : pairFlag ms i = 1 := by simp [pairFlag, hp.1, hp.2]
      have hnext : fwdCount ms (i + 1) = fwdCount ms i + 1 := by
        simp [fwdCount, hflag]
      by_cases ht : (fwdCount ms i : Int) + 1 = target
      · have heq : findStartLoop ms target (fuel + 1) i (fwdCount ms i) = i := by
          simp only [findStartLoop]
          rw [if_pos hp, if_pos ht]
        rw [heq]
        exact ⟨hflag, by omega, hilt⟩
      · have hrec := ih (i + 1) (by omega) (by rw [hnext]; push_cast; omega) hle
        have heq : findStartLoop ms target (fuel + 1) i (fwdCount ms i) =
            findStartLoop ms target fuel (i + 1) ((fwdCount ms i : Int) + 1) := by
          simp only [findStartLoop]
          rw [if_pos hp, if_neg ht]
        have harg : ((fwdCount ms i : Int) + 1) = ((fwdCount ms (i + 1) : Nat) : Int) := by
          rw [hnext]; push_cast; ring
        rw [heq, harg]
        exact hrec
    · have hflag : pairFlag ms i = 0 := by
        simp only [pairFlag, ite_eq_right_iff]
        intro hc
        exact absurd hc hp
      have hnext : fwdCount ms (i + 1) = fwdCount ms i := by
        simp [fwdCount, hflag]
      have hrec := ih (i + 1) (by omega) (by rw [hnext]; exact hlt) hle
      have heq : findStartLoop ms target (fuel + 1) i (fwdCount ms i) =
          findStartLoop ms target fuel (i + 1) (fwdCount ms i) := by
        simp only [findStartLoop]
        rw [if_neg hp]
      rw [heq]
      rw [hnext] at hrec
      exact hrec

/-! ### Behaviour of the trimming pass -/

lemma trim_of_nonpos {maxEx : Int} (h : maxEx ≤ 0) (ms : List Message) :
    trimToMaxExchanges maxEx ms = ms := by
  simp [trimToMaxExchanges, h]

lemma trim_of_le {maxEx : Int} {ms : List Message}
    (h : (countExchanges ms : Int) ≤ maxEx) :
    trimToMaxExchanges maxEx ms = ms := by
  unfold trimToMaxExchanges
  split
  · rfl
  · rw [if_neg]
    omega

/-- When the trimming pass fires, it drops the prefix before the user index
of the first kept exchange: that index `r` starts a complete exchange,
exactly `countExchanges ms - maxEx` complete exchanges lie before it, and
the count seen by the pass equals the total exchange count. -/
lemma trim_fired {maxEx : Int} {ms : List Message} (h0 : 0 < maxEx)
    (h : maxEx < (countExchanges ms : Int)) :
    countExchanges ms = exchangeTotal ms ∧
    ∃ r, trimToMaxExchanges maxEx ms = ms.drop r ∧ pairFlag ms r = 1 ∧
      (fwdCount ms r : Int) = (exchangeTotal ms : Int) - maxEx ∧ r < ms.length := by
  have hne : ms ≠ [] := by
    intro hc
    subst hc
    simp [countExchanges] at h
    omega
  have hlast : roleAt ms (ms.length - 1) ≠ some "user" := by
    intro hc
    rw [countExchanges_eq_zero_of_last_user hc] at h
    simp at h
    omega
  have hcnt : countExchanges ms = exchangeTotal ms :=
    countExchanges_eq_of_last_ne hne hlast
  refine ⟨hcnt, ?_⟩
  set target : Int := (countExchanges ms : Int) - maxEx + 1 with htarget
  have hspec := findStartLoop_spec ms target ms.length 0 (by omega)
    (by show ((fwdCount ms 0 : Nat) : Int) < target; simp [fwdCount]; omega)
    (by rw [← hcnt]; omega)
  have hcall : findStartIndex ms (countExchanges ms) maxEx =
      findStartLoop ms target ms.length 0 (fwdCount ms 0) := by
    simp [findStartIndex, htarget, fwdCount]
  refine ⟨findStartIndex ms (countExchanges ms) maxEx, ?_, ?_, ?_, ?_⟩
  · unfold trimToMaxExchanges
    rw [if_neg (by omega), if_pos (by omega)]
  · rw [hcall]; exact hspec.1
  · rw [hcall, hspec.2.1, htarget, hcnt]; ring
  · rw [hcall]; exact hspec.2.2

lemma exchangeTotal_of_trim_fired {maxEx : Int} {ms : List Message} (h0 : 0 < maxEx)
    (h : maxEx < (countExchanges ms : Int)) :
    (exchangeTotal (trimToMaxExchanges maxEx ms) : Int) = maxEx := by
  obtain ⟨hcnt, r, heq, hpair, hfc, hr⟩ := trim_fired h0 h
  rw [heq]
  have hadd := exchangeTotal_drop_add ms r (Nat.le_of_lt hr)
  have : (exchangeTotal ms : Int) = (fwdCount ms r : Int) + (exchangeTotal (ms.drop r) : Int) := by
    rw [hadd]; push_cast; ring
  omega

/-- Appending any message never removes a complete exchange: the stored
count after `AddMessage` stays within the configured bound. -/
lemma exchangeTotal_addMessage_le {maxEx : Int} (h0 : 0 < maxEx) (ms : List Message)
    (m : Message) (h : (exchangeTotal ms : Int) ≤ maxEx) :
    (exchangeTotal (addMessage maxEx ms m) : Int) ≤ maxEx := by
  unfold addMessage
  by_cases hc : maxEx < (countExchanges (ms ++ [m]) : Int)
  · rw [exchangeTotal_of_trim_fired h0 hc]
  · rw [trim_of_le (by omega)]
    by_cases hu : roleAt (ms ++ [m]) ((ms ++ [m]).length - 1) = some "user"
    · -- the append ends in a user turn: it cannot have created a new
      -- exchange, so the total is unchanged from `ms`
      have hlen : (ms ++ [m]).length = ms.length + 1 := by simp
      have hrole : m.role = "user" := by
        rw [hlen] at hu
        simp only [Nat.add_sub_cancel] at hu
        rw [roleAt_concat_length] at hu
        exact Option.some.inj hu
      have htot : exchangeTotal (ms ++ [m]) = exchangeTotal ms := by
        unfold exchangeTotal
        rw [hlen]
        have hlast : pairFlag (ms ++ [m]) ms.length = 0 := by
          have hnone : roleAt (ms ++ [m]) (ms.length + 1) = none :=
            roleAt_of_le (by simp)
          simp [pairFlag, hnone]
        by_cases hms : ms.length = 0
        · have hms' : ms = [] := List.length_eq_zero.1 hms
          subst hms'
          simp [fwdCount, pairFlag, roleAt, hrole]
        · obtain ⟨k, hk⟩ : ∃ k, ms.length = k + 1 := ⟨ms.length - 1, by omega⟩
          rw [hk] at hlast ⊢
          simp only [fwdCount]
          have hkflag : pairFlag (ms ++ [m]) k = 0 := by
            have hm : roleAt (ms ++ [m]) (k + 1) = some m.role := by
              have hkk : k + 1 = ms.length := by omega
              rw [hkk, roleAt_concat_length]
            simp [pairFlag, hm, hrole]
          have hkflag' : pairFlag ms k = 0 := by
            have hnone : roleAt ms (k + 1) = none := roleAt_of_le (by omega)
            simp [pairFlag, hnone]
          rw [hkflag, hkflag', hlast, fwdCount_congr k
            (fun j hj => pairFlag_append_left [m] (by omega))]
      rw [htot]
      exact_mod_cast h
    · -- the append ends in a non-user turn, so the backward count agrees
      -- with the total, which the pass just checked against the bound
      have hne : ms ++ [m] ≠ [] := by simp
      rw [← countExchanges_eq_of_last_ne hne hu]
      omega

/-- The trailing message survives a `drop` that keeps a nonempty suffix. -/
lemma roleAt_last_drop (ms : List Message) (r : Nat) (h : r < ms.length) :
    roleAt (ms.drop r) ((ms.drop r).length - 1) = roleAt ms (ms.length - 1) := by
  rw [roleAt_drop]
  congr 1
  have : (ms.drop r).length = ms.length - r := List.length_drop r ms
  rw [this]
  omega

/-! ### Claim C7: idempotence of the trimming pass -/

/-- Claim C7: the trimming pass is idempotent — for every message sequence
and every `maxExchanges` value, running `trimToMaxExchanges` twice yields
the same stored sequence as running it once. -/
theorem claim7_trim_idempotent (maxEx : Int) (ms : List Message) :
    trimToMaxExchanges maxEx (trimToMaxExchanges maxEx ms) = trimToMaxExchanges maxEx ms := by
  by_cases h0 : maxEx ≤ 0
  · rw [trim_of_nonpos h0, trim_of_nonpos h0]
  · push_neg at h0
    by_cases hc : maxEx < (countExchanges ms : Int)
    · have hfin := exchangeTotal_of_trim_fired h0 hc
      apply trim_of_le
      calc (countExchanges (trimToMaxExchanges maxEx ms) : Int)
          ≤ (exchangeTotal (trimToMaxExchanges maxEx ms) : Int) := by
            exact_mod_cast countExchanges_le_exchangeTotal _
        _ = maxEx := hfin
    · have h1 : trimToMaxExchanges maxEx ms = ms := trim_of_le (by omega)
      simp only [h1]

/-! ### Claim C10: appending a user turn never removes stored messages -/

/-- The backward scan returns zero on a sequence ending in a user turn, so
`AddMessage` of any message whose role is `"user"` is exactly an append
(used by the relay lemmas below, which append the validated last request
turn). -/
lemma countExchanges_concat_user {m : Message} (hrole : m.role = "user")
    (ms : List Message) : countExchanges (ms ++ [m]) = 0 := by
  have hlen : (ms ++ [m]).length = ms.length + 1 := by simp
  have hu : roleAt (ms ++ [m]) ((ms ++ [m]).length - 1) = some "user" := by
    rw [hlen, Nat.add_sub_cancel, roleAt_concat_length, hrole]
  exact countExchanges_eq_zero_of_last_user hu

lemma addMessage_user_eq_append {m : Message} (hrole : m.role = "user")
    (maxEx : Int) (ms : List Message) :
    addMessage maxEx ms m = ms ++ [m] := by
  have hz := countExchanges_concat_user hrole ms
  unfold addMessage
  by_cases h0 : maxEx ≤ 0
  · exact trim_of_nonpos h0 _
  · exact trim_of_le (by rw [hz]; omega)

/-- Claim C10: appending a turn whose role is `user` never removes any
stored message: `AddMessage` of a user turn is exactly an append, because
the backward complete-exchange scan returns zero whenever the most recent
message has role `user`, so trimming never fires on a user-turn append. -/
theorem claim10_user_append_preserves (maxEx : Int) (ms : List Message) (c : String) :
    addMessage maxEx ms ⟨"user", c⟩ = ms ++ [⟨"user", c⟩] ∧
    countExchanges (ms ++ [⟨"user", c⟩]) = 0 :=
  ⟨addMessage_user_eq_append rfl maxEx ms, countExchanges_concat_user rfl ms⟩

/-! ### Claim C2: the stored history is bounded -/

lemma foldl_addMessage_le (N : Int) (hN : 0 < N) :
    ∀ (inputs : List Message) (s : List Message),
      (exchangeTotal s : Int) ≤ N →
      (exchangeTotal (inputs.foldl (addMessage N) s) : Int) ≤ N := by
  intro inputs
  induction inputs with
  | nil => intro s hs; exact hs
  | cons m rest ih =>
    intro s hs
    exact ih (addMessage N s m) (exchangeTotal_addMessage_le hN s m hs)

lemma foldl_addMessage_user_replicate (N : Int) :
    ∀ (k : Nat) (s : List Message),
      (List.replicate k (mkU "x")).foldl (addMessage N) s =
        s ++ List.replicate k (mkU "x") := by
  intro k
  induction k with
  | zero => intro s; simp
  | succ k ih =>
    intro s
    rw [List.replicate_succ, List.foldl_cons, addMessage_user_eq_append rfl, ih,
      List.append_assoc]
    rfl

/-- Counterexample to claim C2: with `maxExchanges = 1 > 0`, appending four
user turns to the empty store keeps all four — the backward scan returns 0
on every user-trailing append, so trimming never fires — and the resulting
history `[u,u,u,u]` is not at most one complete exchange plus at most one
trailing unmatched user turn. -/
theorem claim2_counterexample :
    (0 : Int) < 1 ∧
    runStore 1 [mkU "a", mkU "b", mkU "c", mkU "d"] =
      [mkU "a", mkU "b", mkU "c", mkU "d"] ∧
    specBoundedHistory 1 [mkU "a", mkU "b", mkU "c", mkU "d"] = false :=
  ⟨by norm_num, by decide, by decide⟩

/-- Amended claim C2: for every `maxExchanges = N > 0` and every finite
sequence of `AddMessage` calls starting from the empty store, the resulting
history holds at most `N` complete exchanges (indices with a user turn
immediately followed by an assistant turn); but the claim's further bound
of at most one trailing unmatched user turn does not hold: unmatched user
turns accumulate without bound, since trimming never fires on a
user-trailing append. -/
theorem claim2_store_bounded (N : Int) (hN : 0 < N) (inputs : List Message) :
    (exchangeTotal (runStore N inputs) : Int) ≤ N ∧
    ∀ k : Nat, runStore N (List.replicate k (mkU "x")) = List.replicate k (mkU "x") := by
  constructor
  · unfold runStore
    exact foldl_addMessage_le N hN inputs [] (by simp [exchangeTotal, fwdCount]; omega)
  · intro k
    unfold runStore
    rw [foldl_addMessage_user_replicate]
    rfl

/-- Witness for the amended claim C2 at a concrete run: three full
exchanges appended with `maxExchanges = 1` leave at most one stored
exchange, while three bare user turns all persist. -/
theorem claim2_witness :
    (exchangeTotal (runStore 1 [mkU "a", mkA "b", mkU "c", mkA "d", mkU "e", mkA "f"]) : Int)
      ≤ 1 ∧
    runStore 1 (List.replicate 3 (mkU "x")) = List.replicate 3 (mkU "x") :=
  ⟨(claim2_store_bounded 1 (by decide) [mkU "a", mkA "b", mkU "c", mkA "d", mkU "e", mkA "f"]).1,
   (claim2_store_bounded 1 (by decide) [mkU "a", mkA "b", mkU "c", mkA "d", mkU "e", mkA "f"]).2 3⟩

/-! ### Sequences made of complete exchanges -/

lemma exchangeList_cons (p : String × String) (es : List (String × String)) :
    exchangeList (p :: es) =
      ⟨"user", p.1⟩ :: ⟨"assistant", p.2⟩ :: exchangeList es := rfl

lemma exchangeList_length (es : List (String × String)) :
    (exchangeList es).length = 2 * es.length := by
  induction es with
  | nil => rfl
  | cons p rest ih =>
    rw [exchangeList_cons]
    simp only [List.length_cons, ih, List.length]
    omega

lemma roleAt_exchangeList_even :
    ∀ (es : List (String × String)) (k : Nat), k < es.length →
      roleAt (exchangeList es) (2 * k) = some "user" := by
  intro es
  induction es with
  | nil => intro k hk; simp at hk
  | cons p rest ih =>
    intro k hk
    cases k with
    | zero => rw [exchangeList_cons]; exact roleAt_cons_zero _ _
    | succ k =>
      rw [exchangeList_cons]
      have h2 : 2 * (k + 1) = 2 * k + 1 + 1 := by ring
      rw [h2, roleAt_cons_succ, roleAt_cons_succ]
      exact ih k (by simpa using Nat.lt_of_succ_lt_succ hk)

lemma roleAt_exchangeList_odd :
    ∀ (es : List (String × String)) (k : Nat), k < es.length →
      roleAt (exchangeList es) (2 * k + 1) = some "assistant" := by
  intro es
  induction es with
  | nil => intro k hk; simp at hk
  | cons p rest ih =>
    intro k hk
    cases k with
    | zero => rw [exchangeList_cons, roleAt_cons_succ]; exact roleAt_cons_zero _ _
    | succ k =>
      rw [exchangeList_cons]
      have h2 : 2 * (k + 1) + 1 = (2 * k + 1) + 1 + 1 := by ring
      rw [h2, roleAt_cons_succ, roleAt_cons_succ]
      exact ih k (by simpa using Nat.lt_of_succ_lt_succ hk)

lemma pairFlag_exchangeList_even {es : List (String × String)} {k : Nat}
    (hk : k < es.length) : pairFlag (exchangeList es) (2 * k) = 1 := by
  simp [pairFlag, roleAt_exchangeList_even es k hk, roleAt_exchangeList_odd es k hk]

lemma pairFlag_exchangeList_odd (es : List (String × String)) (k : Nat) :
    pairFlag (exchangeList es) (2 * k + 1) = 0 := by
  by_cases hk : k < es.length
  · simp [pairFlag, roleAt_exchangeList_odd es k hk]
  · have : roleAt (exchangeList es) (2 * k + 1) = none := by
      apply roleAt_of_le
      rw [exchangeList_length]
      omega
    simp [pairFlag, this]

lemma fwdCount_exchangeList (es : List (String × String)) :
    ∀ k, k ≤ es.length → fwdCount (exchangeList es) (2 * k) = k := by
  intro k
  induction k with
  | zero => intro _; rfl
  | succ k ih =>
    intro hk
    have h2 : 2 * (k + 1) = (2 * k + 1) + 1 := by ring
    rw [h2]
    simp only [fwdCount]
    rw [ih (by omega), pairFlag_exchangeList_odd,
      pairFlag_exchangeList_even (show k < es.length by omega)]

lemma exchangeTotal_exchangeList (es : List (String × String)) :
    exchangeTotal (exchangeList es) = es.length := by
  unfold exchangeTotal
  rw [exchangeList_length]
  exact fwdCount_exchangeList es es.length le_rfl

lemma countExchanges_exchangeList {es : List (String × String)} (h : es ≠ []) :
    countExchanges (exchangeList es) = es.length := by
  obtain ⟨k, hk⟩ : ∃ k, es.length = k + 1 := by
    cases es with
    | nil => exact absurd rfl h
    | cons p rest => exact ⟨rest.length, rfl⟩
  have hne : exchangeList es ≠ [] := by
    intro hc
    have hlen := exchangeList_length es
    rw [hc, hk] at hlen
    simp only [List.length_nil] at hlen
    omega
  have hlast : roleAt (exchangeList es) ((exchangeList es).length - 1) = some "assistant" := by
    rw [exchangeList_length, hk]
    have harith : 2 * (k + 1) - 1 = 2 * k + 1 := by omega
    rw [harith]
    exact roleAt_exchangeList_odd es k (by omega)
  rw [countExchanges_eq_of_last_ne hne (by rw [hlast]; simp),
    exchangeTotal_exchangeList]

lemma drop_exchangeList : ∀ (k : Nat) (es : List (String × String)),
    (exchangeList es).drop (2 * k) = exchangeList (es.drop k) := by
  intro k
  induction k with
  | zero => intro es; rfl
  | succ k ih =>
    intro es
    cases es with
    | nil => simp [exchangeList]
    | cons p rest =>
      rw [exchangeList_cons]
      have h2 : 2 * (k + 1) = 2 * k + 1 + 1 := by ring
      rw [h2, List.drop_succ_cons, List.drop_succ_cons, List.drop_succ_cons]
      exact ih rest

/-! ### Claim C1: the trimming pass, corrected -/

/-- Counterexample to claim C1 as stated. On the stored sequence
`[user a, assistant b, user c, assistant d, user e]` with
`maxExchanges = 1`, the number of indices `i` carrying a user turn with an
assistant turn at `i+1` is 2, which exceeds `maxExchanges`, so the claim
requires the pass to remove exactly one leading user/assistant pair,
leaving `[user c, assistant d, user e]`. The code instead computes a
complete-exchange count of 0 (the backward scan breaks immediately on the
trailing user turn) and removes nothing. -/
theorem claim1_counterexample :
    exchangeTotal [mkU "a", mkA "b", mkU "c", mkA "d", mkU "e"] = 2 ∧
    (1 : Int) < 2 ∧
    countExchanges [mkU "a", mkA "b", mkU "c", mkA "d", mkU "e"] = 0 ∧
    trimToMaxExchanges 1 [mkU "a", mkA "b", mkU "c", mkA "d", mkU "e"] =
      [mkU "a", mkA "b", mkU "c", mkA "d", mkU "e"] ∧
    ([mkU "a", mkA "b", mkU "c", mkA "d", mkU "e"] : List Message) ≠
      [mkU "c", mkA "d", mkU "e"] := by
  refine ⟨by decide, by decide, by decide, by decide, by decide⟩

/-- Claim C1, amended. The trimming pass computes the complete-exchange
count as the number of indices `i` with a user turn at `i` and an
assistant turn at `i+1`, except that the count is 0 whenever the final
turn has role `user` (first conjunct); consequently a sequence ending in a
user turn — in particular a trailing unmatched user turn — is never
trimmed at all (second conjunct); and on a sequence that is a
concatenation of complete user/assistant exchanges whose count exceeds
`maxExchanges > 0`, the pass removes exactly `count - maxExchanges`
leading pairs, preserving every message after them (third conjunct). -/
theorem claim1_trim_amended :
    (∀ ms : List Message, ms ≠ [] →
      countExchanges ms =
        if roleAt ms (ms.length - 1) = some "user" then 0 else exchangeTotal ms) ∧
    (∀ (maxEx : Int) (ms : List Message),
      roleAt ms (ms.length - 1) = some "user" →
      trimToMaxExchanges maxEx ms = ms) ∧
    (∀ (es : List (String × String)) (maxEx : Int), 0 < maxEx →
      maxEx < (es.length : Int) →
      trimToMaxExchanges maxEx (exchangeList es) =
        exchangeList (es.drop (es.length - maxEx.toNat))) := by
  refine ⟨?_, ?_, ?_⟩
  · intro ms hne
    by_cases hu : roleAt ms (ms.length - 1) = some "user"
    · rw [if_pos hu]
      exact countExchanges_eq_zero_of_last_user hu
    · rw [if_neg hu]
      exact countExchanges_eq_of_last_ne hne hu
  · intro maxEx ms hu
    have hz := countExchanges_eq_zero_of_last_user hu
    by_cases h0 : maxEx ≤ 0
    · exact trim_of_nonpos h0 _
    · exact trim_of_le (by rw [hz]; omega)
  · intro es maxEx h0 hlt
    have hne : es ≠ [] := by
      intro hc
      subst hc
      simp at hlt
      omega
    have hcnt : countExchanges (exchangeList es) = es.length :=
      countExchanges_exchangeList hne
    have hfired := @trim_fired maxEx (exchangeList es) h0 (by rw [hcnt]; exact_mod_cast hlt)
    obtain ⟨-, r, heq, hpair, hfc, hr⟩ := hfired
    rw [exchangeTotal_exchangeList] at hfc
    obtain ⟨m, hm⟩ : ∃ m, r = 2 * m := by
      rcases Nat.even_or_odd r with he | ho
      · obtain ⟨s, hs⟩ := he
        exact ⟨s, by omega⟩
      · exfalso
        obtain ⟨m, hm⟩ := ho
        rw [hm, pairFlag_exchangeList_odd] at hpair
        simp at hpair
    subst hm
    have hmlt : m < es.length := by
      rw [exchangeList_length] at hr
      omega
    have hfm : fwdCount (exchangeList es) (2 * m) = m :=
      fwdCount_exchangeList es m (Nat.le_of_lt hmlt)
    rw [hfm] at hfc
    have hmval : m = es.length - maxEx.toNat := by omega
    rw [heq, drop_exchangeList, hmval]

/-- Witness for the amended claim C1 at concrete inputs: the count
characterization on a one-element user sequence, the no-trim guarantee on
a trailing-user sequence, and the exact-pair removal on three exchanges
with `maxExchanges = 2` (the spec's concrete scenario 1). -/
theorem claim1_witness :
    countExchanges [mkU "x"] =
      (if roleAt [mkU "x"] (([mkU "x"] : List Message).length - 1) = some "user" then 0
       else exchangeTotal [mkU "x"]) ∧
    trimToMaxExchanges 7 [mkU "x", mkA "y", mkU "z"] = [mkU "x", mkA "y", mkU "z"] ∧
    trimToMaxExchanges 2 (exchangeList [("a", "b"), ("c", "d"), ("e", "f")]) =
      exchangeList [("c", "d"), ("e", "f")] := by
  refine ⟨?_, ?_, ?_⟩
  · exact claim1_trim_amended.1 [mkU "x"] (by decide)
  · exact claim1_trim_amended.2.1 7 [mkU "x", mkA "y", mkU "z"] (by decide)
  · have h := claim1_trim_amended.2.2 [("a", "b"), ("c", "d"), ("e", "f")] 2
      (by decide) (by decide)
    simpa using h

/-! ### Validation characterization -/

lemma validateLoop_none_iff :
    ∀ (msgs : List Message) (i : Nat),
      validateLoop msgs i = none ↔
        ∀ m ∈ msgs, (m.role = "user" ∨ m.role = "assistant") ∧ m.content ≠ "" := by
  intro msgs
  induction msgs with
  | nil => intro i; simp [validateLoop]
  | cons m rest ih =>
    intro i
    by_cases hr : ¬ (m.role = "user") ∧ ¬ (m.role = "assistant")
    · simp only [validateLoop, if_pos hr]
      simp only [List.mem_cons]
      constructor
      · intro hc; exact absurd hc (by simp)
      · intro hall
        have := (hall m (Or.inl rfl)).1
        tauto
    · by_cases hc : m.content = ""
      · simp only [validateLoop, if_neg hr, if_pos hc]
        simp only [List.mem_cons]
        constructor
        · intro hco; exact absurd hco (by simp)
        · intro hall
          exact absurd hc (hall m (Or.inl rfl)).2
      · simp only [validateLoop, if_neg hr, if_neg hc]
        rw [ih (i + 1)]
        simp only [List.mem_cons]
        constructor
        · intro hall
          intro m' hm'
          rcases hm' with h1 | h2
          · subst h1
            exact ⟨by tauto, hc⟩
          · exact hall m' h2
        · intro hall m' hm'
          exact hall m' (Or.inr hm')

lemma validateLoop_some_validation :
    ∀ (msgs : List Message) (i : Nat) (e : AppError),
      validateLoop msgs i = some e → e.errType = .validation := by
  intro msgs
  induction msgs with
  | nil => intro i e h; simp [validateLoop] at h
  | cons m rest ih =>
    intro i e h
    simp only [validateLoop] at h
    split at h
    · cases h; rfl
    · split at h
      · cases h; rfl
      · exact ih (i + 1) e h

lemma validate_some_validation {msgs : List Message} {e : AppError}
    (h : validate msgs = some e) : e.errType = .validation := by
  unfold validate at h
  split at h
  · cases h; rfl
  · cases hl : validateLoop msgs 0 with
    | none =>
      rw [hl] at h
      simp only at h
      split at h
      · cases h; rfl
      · cases h
    | some e' =>
      rw [hl] at h
      simp only at h
      cases h
      exact validateLoop_some_validation msgs 0 _ hl

lemma validate_none_iff (msgs : List Message) :
    validate msgs = none ↔
      (msgs ≠ [] ∧ (∀ m ∈ msgs, m.role = "user" ∨ m.role = "assistant") ∧
        (∀ m ∈ msgs, m.content ≠ "") ∧ (msgs.getLastD ⟨"", ""⟩).role = "user") := by
  unfold validate
  by_cases hlen : msgs.length = 0
  · rw [if_pos hlen]
    have : msgs = [] := List.length_eq_zero.1 hlen
    subst this
    simp
  · rw [if_neg hlen]
    have hne : msgs ≠ [] := by
      intro hc; subst hc; exact hlen rfl
    cases hl : validateLoop msgs 0 with
    | none =>
      simp only
      by_cases hu : ¬ ((msgs.getLastD ⟨"", ""⟩).role = "user")
      · rw [if_pos hu]
        simp only [reduceCtorEq, false_iff]
        intro hc
        exact hu hc.2.2.2
      · rw [if_neg hu]
        push_neg at hu
        have hall := (validateLoop_none_iff msgs 0).1 hl
        simp only [true_iff]
        exact ⟨hne, fun m hm => (hall m hm).1, fun m hm => (hall m hm).2, hu⟩
    | some e' =>
      simp only
      constructor
      · intro hc; cases hc
      · intro ⟨_, hroles, hcontents, _⟩
        have hcn : validateLoop msgs 0 = none := by
          rw [validateLoop_none_iff]
          intro m hm
          exact ⟨hroles m hm, hcontents m hm⟩
        rw [hl] at hcn
        cases hcn

lemma validate_none_last_user {msgs : List Message} (h : validate msgs = none) :
    (msgs.getLastD ⟨"", ""⟩).role = "user" :=
  ((validate_none_iff msgs).1 h).2.2.2

/-! ### Claim C5: validation gate -/

/-- Claim C5: `Validate` accepts exactly the requests with a nonempty turn
list, all roles in user/assistant, no empty content, and a user-role final
turn (first conjunct); every rejection carries the validation
classification (second conjunct); and on rejection both `ProcessChat` and
`ProcessChatStream` return the error with the history store unchanged, no
cache call made, and a result independent of the backend, which is
therefore never consulted (third and fourth conjuncts). -/
theorem claim5_validation :
    (∀ req : List Message,
      validate req = none ↔
        (req ≠ [] ∧ (∀ m ∈ req, m.role = "user" ∨ m.role = "assistant") ∧
          (∀ m ∈ req, m.content ≠ "") ∧ (req.getLastD ⟨"", ""⟩).role = "user")) ∧
    (∀ (req : List Message) (e : AppError),
      validate req = some e → e.errType = .validation) ∧
    (∀ (maxEx : Int) (store req : List Message)
        (backend : List Message → Except AppError String)
        (cache : Option CacheOracle) (e : AppError),
      validate req = some e →
      processChat maxEx store req backend cache =
        (.error (wrapErr "validation error: " e), store, [])) ∧
    (∀ (σ : Type) (maxEx : Int) (store req : List Message)
        (parse : String → Option ChatResponse)
        (doRequest : List Message → Except AppError (List String))
        (cache : Option CacheOracle)
        (sink : σ → String → Except AppError σ) (s0 : σ) (e : AppError),
      validate req = some e →
      processChatStream maxEx store req parse doRequest cache sink s0 =
        (.error (wrapErr "validation error: " e), store, [], s0)) := by
  refine ⟨validate_none_iff, fun req e h => validate_some_validation h, ?_, ?_⟩
  · intro maxEx store req backend cache e hv
    unfold processChat
    rw [hv]
  · intro σ maxEx store req parse doRequest cache sink s0 e hv
    unfold processChatStream
    rw [hv]

/-- Witness for claim C5 at concrete rejected requests: a turn with role
`moderator` is rejected by both relay entry points with a
validation-classified error and no store change, no cache call. -/
theorem claim5_witness :
    (validate [⟨"moderator", "x"⟩] =
      some (newValidationError
        "invalid role 'moderator' at index 0: must be 'user' or 'assistant'")) ∧
    processChat 2 [mkU "old"] [⟨"moderator", "x"⟩] (fun _ => .ok "resp") none =
      (.error (wrapErr "validation error: " (newValidationError
        "invalid role 'moderator' at index 0: must be 'user' or 'assistant'")),
        [mkU "old"], []) ∧
    processChatStream 2 [mkU "old"] [mkA "hi"] (fun _ => none)
        (fun _ => .ok []) none (fun (s : List String) f => .ok (s ++ [f])) [] =
      (.error (wrapErr "validation error: " (newValidationError
        "last message must be from user, got 'assistant'")), [mkU "old"], [], []) := by
  refine ⟨by decide, ?_, ?_⟩
  · exact claim5_validation.2.2.1 2 [mkU "old"] [⟨"moderator", "x"⟩]
      (fun _ => .ok "resp") none _ (by decide)
  · exact claim5_validation.2.2.2 (List String) 2 [mkU "old"] [mkA "hi"]
      (fun _ => none) (fun _ => .ok []) none (fun s f => .ok (s ++ [f])) [] _ (by decide)

/-! ### Claim C6: backend failure leaves only the orphaned user turn -/

/-- Claim C6: when validation passes and the backend `Chat` call fails
with a classified error, `ProcessChat` returns that error wrapped with its
classification intact, and the history store afterwards is exactly the
previous contents plus the appended user turn — no assistant turn and no
other change (the user-turn append never trims, by the trailing-user
property of the scan). -/
theorem claim6_backend_failure (maxEx : Int) (store req : List Message)
    (e : AppError) (cache : Option CacheOracle)
    (hv : validate req = none) :
    processChat maxEx store req (fun _ => .error e) cache =
      (.error (wrapErr "groq API error: " e),
        store ++ [req.getLastD ⟨"", ""⟩], cacheTokenCheck cache) ∧
    (wrapErr "groq API error: " e).errType = e.errType := by
  constructor
  · unfold processChat
    rw [hv]
    simp only
    rw [addMessage_user_eq_append (validate_none_last_user hv)]
  · rfl

/-- Witness for claim C6: a rate-limited backend call on request
`[user Hi]` over an empty store returns the rate-limit classification and
leaves exactly the orphaned user turn stored. -/
theorem claim6_witness :
    processChat 5 [] [mkU "Hi"]
        (fun _ => .error (newRateLimitError "LLM API rate limit exceeded")) none =
      (.error (wrapErr "groq API error: "
          (newRateLimitError "LLM API rate limit exceeded")), [mkU "Hi"], []) ∧
    (wrapErr "groq API error: "
        (newRateLimitError "LLM API rate limit exceeded")).errType =
      ErrorType.rateLimit := by
  have h := claim6_backend_failure 5 [] [mkU "Hi"]
    (newRateLimitError "LLM API rate limit exceeded") none (by decide)
  exact ⟨by simpa using h.1, h.2⟩

/-! ### Claim C9: the relay outcome is independent of the token cache -/

/-- Claim C9: for every request, the result and the history-store change
of `ProcessChat` and `ProcessChatStream` (and the sink states the caller
observes) are identical whatever the cache store does — absent (`none`),
hit, clean miss, or failing on every call; only the trace of cache calls
differs, so no cache failure is ever surfaced to the caller. -/
theorem claim9_cache_independent (σ : Type) (maxEx : Int) (store req : List Message)
    (backend : List Message → Except AppError String)
    (parse : String → Option ChatResponse)
    (doRequest : List Message → Except AppError (List String))
    (sink : σ → String → Except AppError σ) (s0 : σ)
    (c1 c2 : Option CacheOracle) :
    ((processChat maxEx store req backend c1).1 =
      (processChat maxEx store req backend c2).1) ∧
    ((processChat maxEx store req backend c1).2.1 =
      (processChat maxEx store req backend c2).2.1) ∧
    ((processChatStream maxEx store req parse doRequest c1 sink s0).1 =
      (processChatStream maxEx store req parse doRequest c2 sink s0).1) ∧
    ((processChatStream maxEx store req parse doRequest c1 sink s0).2.1 =
      (processChatStream maxEx store req parse doRequest c2 sink s0).2.1) ∧
    ((processChatStream maxEx store req parse doRequest c1 sink s0).2.2.2 =
      (processChatStream maxEx store req parse doRequest c2 sink s0).2.2.2) := by
  unfold processChat processChatStream
  cases hv : validate req with
  | some e => simp
  | none =>
    simp only
    cases hb : backend (store ++ [req.getLastD ⟨"", ""⟩]) <;>
      cases hs : streamChat parse doRequest (store ++ [req.getLastD ⟨"", ""⟩]) sink s0 <;>
      simp

/-! ### Claim C4: stream text equals the delivered fragments -/

/-- A successful scan reports exactly the concatenation of the fragments,
and the sink has consumed exactly those fragments in order. -/
lemma scanStream_ok {σ : Type} (parse : String → Option ChatResponse)
    (sink : σ → String → Except AppError σ) :
    ∀ (lines : List String) (acc : String) (s : σ) (full : String) (s1 : σ),
      scanStream parse sink lines acc s = .ok (full, s1) →
      full = acc ++ concatAll (streamFragments parse lines) ∧
      foldSink sink s (streamFragments parse lines) = .ok s1 := by
  intro lines
  induction lines with
  | nil =>
    intro acc s full s1 h
    simp only [scanStream] at h
    cases h
    exact ⟨(String.append_empty acc).symm, rfl⟩
  | cons line rest ih =>
    intro acc s full s1 h
    simp only [scanStream] at h
    cases hls : lineStep parse line with
    | skip =>
      rw [hls] at h
      simp only [streamFragments, hls]
      exact ih acc s full s1 h
    | done =>
      rw [hls] at h
      cases h
      constructor
      · simp only [streamFragments, hls, concatAll]
        exact (String.append_empty acc).symm
      · simp only [streamFragments, hls, foldSink]
    | tok content =>
      rw [hls] at h
      have h' : (match sink s content with
          | Except.error e => Except.error (e, s)
          | Except.ok s2 => scanStream parse sink rest (acc ++ content) s2) =
          Except.ok (full, s1) := h
      simp only [streamFragments, hls, concatAll, foldSink]
      cases hsink : sink s content with
      | error e => rw [hsink] at h'; cases h'
      | ok s2 =>
        rw [hsink] at h'
        obtain ⟨hfull, hfold⟩ := ih (acc ++ content) s2 full s1 h'
        rw [String.append_assoc] at hfull
        exact ⟨hfull, hfold⟩

/-- Claim C4: for every streaming request that passes validation, whose
`DoRequest` succeeds with body lines, and whose scan completes without the
caller sink returning an error, the text `ProcessChatStream` returns is
byte-for-byte the concatenation, in delivery order, of exactly the
fragments passed to the caller sink; the sink consumed exactly those
fragments in that order; and an assistant turn carrying that text is
appended to the history after the already-appended user turn. -/
theorem claim4_stream_agreement (σ : Type) (maxEx : Int) (store req : List Message)
    (parse : String → Option ChatResponse) (lines : List String)
    (doRequest : List Message → Except AppError (List String))
    (cache : Option CacheOracle)
    (sink : σ → String → Except AppError σ) (s0 : σ) (full : String) (s1 : σ)
    (hv : validate req = none)
    (hreq : doRequest (store ++ [req.getLastD ⟨"", ""⟩]) = .ok lines)
    (hscan : scanStream parse sink lines "" s0 = .ok (full, s1)) :
    processChatStream maxEx store req parse doRequest cache sink s0 =
      (.ok full,
        addMessage maxEx (store ++ [req.getLastD ⟨"", ""⟩]) ⟨"assistant", full⟩,
        cacheTokenCheck cache, s1) ∧
    full = concatAll (streamFragments parse lines) ∧
    foldSink sink s0 (streamFragments parse lines) = .ok s1 := by
  obtain ⟨hfull, hfold⟩ := scanStream_ok parse sink lines "" s0 full s1 hscan
  refine ⟨?_, by simpa using hfull, hfold⟩
  unfold processChatStream
  rw [hv]
  simp only
  rw [addMessage_user_eq_append (validate_none_last_user hv)]
  unfold streamChat
  rw [hreq]
  simp only [hscan]

/-- Witness for claim C4, the spec's concrete scenario 2: on request
`[user Hi]` with backend fragments `He` then `llo`, the sink receives
exactly `[He, llo]` in order, the relay returns `"Hello"`, and the
history afterwards is `[user Hi, assistant Hello]`. -/
theorem claim4_witness :
    processChatStream 5 [] [mkU "Hi"] demoParse (fun _ => .ok demoLines) none
        recordSink [] =
      (.ok "Hello",
        addMessage 5 ([] ++ [([mkU "Hi"] : List Message).getLastD ⟨"", ""⟩])
          ⟨"assistant", "Hello"⟩,
        cacheTokenCheck none, ["He", "llo"]) ∧
    "Hello" = concatAll (streamFragments demoParse demoLines) ∧
    foldSink recordSink [] (streamFragments demoParse demoLines) =
      .ok ["He", "llo"] :=
  claim4_stream_agreement (List String) 5 [] [mkU "Hi"] demoParse demoLines
    (fun _ => .ok demoLines) none recordSink [] "Hello" ["He", "llo"]
    (by decide) rfl (by decide)

example :
    addMessage 5 ([] ++ [([mkU "Hi"] : List Message).getLastD ⟨"", ""⟩])
      ⟨"assistant", "Hello"⟩ = [mkU "Hi", mkA "Hello"] := by decide

lemma blockWF_head_user : ∀ {m : Message} {t : List Message},
    blockWF (m :: t) = true → m.role = "user" := by
  intro m t h
  cases t with
  | nil => simpa [blockWF] using h
  | cons b t' =>
    simp only [blockWF, Bool.and_eq_true, beq_iff_eq] at h
    exact h.1

/-- Concatenating two block-structured sequences is block-structured: the
second sequence, when nonempty, begins with a user turn, which starts a
fresh block. -/
lemma blockWF_append :
    ∀ (n : Nat) (ms ts : List Message), ms.length ≤ n →
      blockWF ms = true → blockWF ts = true → blockWF (ms ++ ts) = true := by
  intro n
  induction n with
  | zero =>
    intro ms ts hlen hms hts
    have : ms = [] := by
      cases ms with
      | nil => rfl
      | cons m t => simp at hlen
    subst this
    simpa using hts
  | succ n ih =>
    intro ms ts hlen hms hts
    match ms with
    | [] => simpa using hts
    | [m] =>
      have hm : m.role = "user" := blockWF_head_user hms
      cases ts with
      | nil => simpa using hms
      | cons t0 ts' =>
        have ht0 : t0.role = "user" := blockWF_head_user hts
        show blockWF (m :: t0 :: ts') = true
        simp only [blockWF, Bool.and_eq_true, beq_iff_eq]
        refine ⟨hm, ?_⟩
        rw [if_neg (by simp [ht0])]
        exact hts
    | a :: b :: t =>
      simp only [blockWF, Bool.and_eq_true, beq_iff_eq] at hms
      obtain ⟨ha, hrest⟩ := hms
      show blockWF (a :: b :: (t ++ ts)) = true
      simp only [blockWF, Bool.and_eq_true, beq_iff_eq]
      refine ⟨ha, ?_⟩
      by_cases hb : b.role = "assistant"
      · rw [if_pos hb] at hrest ⊢
        have hlt : t.length ≤ n := by
          simp only [List.length_cons] at hlen
          omega
        exact ih t ts hlt hrest hts
      · rw [if_neg hb] at hrest ⊢
        have hlt : (b :: t).length ≤ n := by
          simp only [List.length_cons] at hlen ⊢
          omega
        have := ih (b :: t) ts hlt hrest hts
        simpa using this

lemma pairFlag_eq_one_iff {ms : List Message} {i : Nat} :
    pairFlag ms i = 1 ↔
      (roleAt ms i = some "user" ∧ roleAt ms (i + 1) = some "assistant") := by
  unfold pairFlag
  split
  · simp_all
  · simp_all

/-- Dropping the prefix before an index that starts a complete exchange
preserves the block structure: such an index is always a block boundary. -/
lemma blockWF_drop_pair :
    ∀ (n : Nat) (ms : List Message), ms.length ≤ n → blockWF ms = true →
      ∀ r, pairFlag ms r = 1 → blockWF (ms.drop r) = true := by
  intro n
  induction n with
  | zero =>
    intro ms hlen hms r hr
    have : ms = [] := by
      cases ms with
      | nil => rfl
      | cons m t => simp at hlen
    subst this
    rw [pairFlag_eq_one_iff] at hr
    simp [roleAt] at hr
  | succ n ih =>
    intro ms hlen hms r hr
    match ms with
    | [] =>
      rw [pairFlag_eq_one_iff] at hr
      simp [roleAt] at hr
    | [m] =>
      rw [pairFlag_eq_one_iff] at hr
      obtain ⟨h1, h2⟩ := hr
      have : r < 1 := by
        by_contra hc
        rw [roleAt_of_le (by simpa using Nat.le_of_not_lt hc)] at h1
        cases h1
      have hr0 : r = 0 := by omega
      subst hr0
      rw [roleAt_of_le (by simp)] at h2
      cases h2
    | a :: b :: t =>
      simp only [blockWF, Bool.and_eq_true, beq_iff_eq] at hms
      obtain ⟨ha, hrest⟩ := hms
      match r with
      | 0 =>
        show blockWF (a :: b :: t) = true
        simp only [blockWF, Bool.and_eq_true, beq_iff_eq]
        exact ⟨ha, hrest⟩
      | 1 =>
        rw [pairFlag_eq_one_iff] at hr
        obtain ⟨h1, _⟩ := hr
        rw [roleAt_cons_succ, roleAt_cons_zero] at h1
        have hb : b.role = "user" := Option.some.inj h1
        rw [if_neg (by simp [hb])] at hrest
        show blockWF ((a :: b :: t).drop 1) = true
        simpa using hrest
      | r + 2 =>
        have hshift : pairFlag t r = 1 := by
          rw [pairFlag_eq_one_iff] at hr ⊢
          rw [roleAt_cons_succ, roleAt_cons_succ,
            roleAt_cons_succ, roleAt_cons_succ] at hr
          exact hr
        show blockWF (t.drop r) = true
        by_cases hb : b.role = "assistant"
        · rw [if_pos hb] at hrest
          exact ih t (by simp only [List.length_cons] at hlen; omega) hrest r hshift
        · rw [if_neg hb] at hrest
          have hbt : pairFlag (b :: t) (r + 1) = 1 := by
            rw [pairFlag_eq_one_iff] at hshift ⊢
            rw [roleAt_cons_succ, roleAt_cons_succ]
            exact hshift
          have := ih (b :: t) (by simp only [List.length_cons] at hlen ⊢; omega)
            hrest (r + 1) hbt
          simpa using this

/-- The trimming pass preserves the block structure: when it fires, it
drops the prefix before the user turn of a complete exchange. -/
lemma blockWF_trim (maxEx : Int) (ms : List Message) (h : blockWF ms = true) :
    blockWF (trimToMaxExchanges maxEx ms) = true := by
  by_cases h0 : maxEx ≤ 0
  · rwa [trim_of_nonpos h0]
  · push_neg at h0
    by_cases hc : maxEx < (countExchanges ms : Int)
    · obtain ⟨-, r, heq, hpair, -, -⟩ := trim_fired h0 hc
      rw [heq]
      exact blockWF_drop_pair ms.length ms le_rfl h r hpair
    · rwa [trim_of_le (by omega)]

lemma blockWF_user_single {m : Message} (hm : m.role = "user") :
    blockWF [m] = true := by
  simp [blockWF, hm]

lemma blockWF_exchange_pair {m : Message} (hm : m.role = "user") (c : String) :
    blockWF [m, ⟨"assistant", c⟩] = true := by
  simp [blockWF, hm]

lemma processChat_preserves_blockWF (maxEx : Int) (s req : List Message)
    (backend : List Message → Except AppError String) (cache : Option CacheOracle)
    (h : blockWF s = true) :
    blockWF (processChat maxEx s req backend cache).2.1 = true := by
  unfold processChat
  cases hv : validate req with
  | some e => simpa
  | none =>
    simp only
    have hu : (req.getLastD ⟨"", ""⟩).role = "user" := validate_none_last_user hv
    rw [addMessage_user_eq_append hu]
    have h1 : blockWF (s ++ [req.getLastD ⟨"", ""⟩]) = true :=
      blockWF_append s.length s _ le_rfl h (blockWF_user_single hu)
    cases hb : backend (s ++ [req.getLastD ⟨"", ""⟩]) with
    | error e => simpa using h1
    | ok resp =>
      show blockWF (addMessage maxEx (s ++ [req.getLastD ⟨"", ""⟩])
        ⟨"assistant", resp⟩) = true
      unfold addMessage
      apply blockWF_trim
      have happ : (s ++ [req.getLastD ⟨"", ""⟩]) ++ [(⟨"assistant", resp⟩ : Message)] =
          s ++ [req.getLastD ⟨"", ""⟩, ⟨"assistant", resp⟩] := by simp
      rw [happ]
      exact blockWF_append s.length s _ le_rfl h (blockWF_exchange_pair hu resp)

lemma processChatStream_preserves_blockWF (σ : Type) (maxEx : Int)
    (s req : List Message) (parse : String → Option ChatResponse)
    (doRequest : List Message → Except AppError (List String))
    (cache : Option CacheOracle) (sink : σ → String → Except AppError σ) (s0 : σ)
    (h : blockWF s = true) :
    blockWF (processChatStream maxEx s req parse doRequest cache sink s0).2.1 = true := by
  unfold processChatStream
  cases hv : validate req with
  | some e => simpa
  | none =>
    simp only
    have hu : (req.getLastD ⟨"", ""⟩).role = "user" := validate_none_last_user hv
    rw [addMessage_user_eq_append hu]
    have h1 : blockWF (s ++ [req.getLastD ⟨"", ""⟩]) = true :=
      blockWF_append s.length s _ le_rfl h (blockWF_user_single hu)
    cases hb : streamChat parse doRequest (s ++ [req.getLastD ⟨"", ""⟩]) sink s0 with
    | error es => simpa using h1
    | ok fs =>
      show blockWF (addMessage maxEx (s ++ [req.getLastD ⟨"", ""⟩])
        ⟨"assistant", fs.1⟩) = true
      unfold addMessage
      apply blockWF_trim
      have happ : (s ++ [req.getLastD ⟨"", ""⟩]) ++ [(⟨"assistant", fs.1⟩ : Message)] =
          s ++ [req.getLastD ⟨"", ""⟩, ⟨"assistant", fs.1⟩] := by simp
      rw [happ]
      exact blockWF_append s.length s _ le_rfl h (blockWF_exchange_pair hu fs.1)

/-- Claim C3, amended: every store state reachable from the empty store
through `ProcessChat` and `ProcessChatStream` (including failing
requests) is a concatenation of blocks, each a complete user/assistant
exchange or a lone orphaned user turn; a failed request leaves its user
turn in place, and later successful exchanges are appended after it, so
unmatched user turns need not be trailing. -/
theorem claim3_block_invariant (maxEx : Int) (s : List Message)
    (h : Reachable maxEx s) : blockWF s = true := by
  induction h with
  | empty => rfl
  | chatStep req backend cache _ ih =>
    exact processChat_preserves_blockWF maxEx _ req backend cache ih
  | streamStep σ req parse doRequest cache sink s0 _ ih =>
    exact processChatStream_preserves_blockWF σ maxEx _ req parse doRequest cache sink s0 ih

/-- Counterexample to claim C3 as stated: after a request whose backend
call fails (leaving the orphaned user turn `a`) and a subsequent request
that succeeds, the reachable store contents `[user a, user b, assistant c]`
are not a concatenation of exchanges optionally followed by one trailing
unmatched user turn — the unmatched user turn `a` is buried at the front. -/
theorem claim3_counterexample :
    Reachable 2 [mkU "a", mkU "b", mkA "c"] ∧
    wellFormedSpec [mkU "a", mkU "b", mkA "c"] = false := by
  constructor
  · have h1 : Reachable 2 [mkU "a"] := by
      have h := @Reachable.chatStep 2 [mkU "a"] demoFailBackend none []
        Reachable.empty
      have heq : (processChat 2 [] [mkU "a"] demoFailBackend none).2.1 = [mkU "a"] := by
        decide
      rwa [heq] at h
    have h := @Reachable.chatStep 2 [mkU "b"] demoOkBackend none [mkU "a"] h1
    have heq : (processChat 2 [mkU "a"] [mkU "b"] demoOkBackend none).2.1 =
        [mkU "a", mkU "b", mkA "c"] := by decide
    rwa [heq] at h
  · decide

/-- Witness for the amended claim C3: the state reached by a failed
request followed by a successful one satisfies the block-structure
invariant (an orphaned user turn followed by a complete exchange). -/
theorem claim3_witness : blockWF [mkU "a", mkU "b", mkA "c"] = true := by
  have h1 : Reachable 2 [mkU "a"] := by
    have h := @Reachable.chatStep 2 [mkU "a"] demoFailBackend none []
      Reachable.empty
    have heq : (processChat 2 [] [mkU "a"] demoFailBackend none).2.1 = [mkU "a"] := by
      decide
    rwa [heq] at h
  have h2 : Reachable 2 [mkU "a", mkU "b", mkA "c"] := by
    have h := @Reachable.chatStep 2 [mkU "b"] demoOkBackend none [mkU "a"] h1
    have heq : (processChat 2 [mkU "a"] [mkU "b"] demoOkBackend none).2.1 =
        [mkU "a", mkU "b", mkA "c"] := by decide
    rwa [heq] at h
  exact claim3_block_invariant 2 _ h2

lemma hexVal_hexDigitChar : ∀ n, n < 16 → hexVal (hexDigitChar n) = n := by decide

lemma expectChars_append : ∀ (ps rest : List Char),
    expectChars ps (ps ++ rest) = some rest := by
  intro ps
  induction ps with
  | nil => intro rest; rfl
  | cons p ps ih => intro rest; simp [expectChars, ih]

lemma parseQuoted_uEscape (c : Char) (hc : c.toNat < 65536) (k : List Char) :
    parseQuoted (uEscape c.toNat ++ k) =
      (fun p => (c :: p.1, p.2)) <$> parseQuoted k := by
  have e1 : hexVal (hexDigitChar (c.toNat / 4096 % 16)) = c.toNat / 4096 % 16 :=
    hexVal_hexDigitChar _ (Nat.mod_lt _ (by norm_num))
  have e2 : hexVal (hexDigitChar (c.toNat / 256 % 16)) = c.toNat / 256 % 16 :=
    hexVal_hexDigitChar _ (Nat.mod_lt _ (by norm_num))
  have e3 : hexVal (hexDigitChar (c.toNat / 16 % 16)) = c.toNat / 16 % 16 :=
    hexVal_hexDigitChar _ (Nat.mod_lt _ (by norm_num))
  have e4 : hexVal (hexDigitChar (c.toNat % 16)) = c.toNat % 16 :=
    hexVal_hexDigitChar _ (Nat.mod_lt _ (by norm_num))
  show parseQuoted ('\\' :: 'u' :: _ :: _ :: _ :: _ :: k) = _
  conv_lhs => unfold parseQuoted
  simp only [Char.reduceEq, reduceIte]
  rw [e1, e2, e3, e4]
  have harith : 4096 * (c.toNat / 4096 % 16) + 256 * (c.toNat / 256 % 16) +
      16 * (c.toNat / 16 % 16) + c.toNat % 16 = c.toNat := by omega
  rw [harith, Char.ofNat_toNat]

lemma parseQuoted_escapeChar (c : Char) (k : List Char) :
    parseQuoted (escapeChar c ++ k) = (fun p => (c :: p.1, p.2)) <$> parseQuoted k := by
  unfold escapeChar
  split_ifs with h1 h2 h3 h4 h5 h6 h7
  · subst h1
    show parseQuoted ('\\' :: '"' :: k) = _
    conv_lhs => unfold parseQuoted
    simp only [Char.reduceEq, reduceIte]
  · subst h2
    show parseQuoted ('\\' :: '\\' :: k) = _
    conv_lhs => unfold parseQuoted
    simp only [Char.reduceEq, reduceIte]
  · subst h3
    show parseQuoted ('\\' :: 'n' :: k) = _
    conv_lhs => unfold parseQuoted
    simp only [Char.reduceEq, reduceIte]
  · subst h4
    show parseQuoted ('\\' :: 'r' :: k) = _
    conv_lhs => unfold parseQuoted
    simp only [Char.reduceEq, reduceIte]
  · subst h5
    show parseQuoted ('\\' :: 't' :: k) = _
    conv_lhs => unfold parseQuoted
    simp only [Char.reduceEq, reduceIte]
  · have hc : c.toNat < 65536 := by
      rcases h6 with h | h | h | h
      · omega
      · subst h; decide
      · subst h; decide
      · subst h; decide
    exact parseQuoted_uEscape c hc k
  · have hc : c.toNat < 65536 := by
      rcases h7 with h | h <;> omega
    exact parseQuoted_uEscape c hc k
  · show parseQuoted (c :: k) = _
    conv_lhs => unfold parseQuoted
    rw [if_neg h1, if_neg h2]

lemma parseQuoted_escapeChars : ∀ (cs k : List Char),
    parseQuoted (escapeChars cs ++ '"' :: k) = some (cs, k) := by
  intro cs
  induction cs with
  | nil =>
    intro k
    show parseQuoted ('"' :: k) = some ([], k)
    conv_lhs => unfold parseQuoted
    simp only [Char.reduceEq, reduceIte]
  | cons c cs ih =>
    intro k
    have hstep : escapeChars (c :: cs) ++ '"' :: k =
        escapeChar c ++ (escapeChars cs ++ '"' :: k) := by
      simp [escapeChars]
    rw [hstep, parseQuoted_escapeChar, ih]
    rfl

lemma stringMk_data (s : String) : String.mk s.data = s := by
  cases s
  rfl

lemma parseMessage_marshal (m : Message) (k : List Char) :
    parseMessage (marshalMessage m ++ k) = some (m, k) := by
  have hbr : ∀ kk : List Char, expectChars ['\x7d'] ('\x7d' :: kk) = some kk := by
    intro kk
    simp [expectChars]
  have hshape : marshalMessage m ++ k =
      roleTag ++ (escapeChars m.role.data ++ ('"' ::
        (midTag.drop 1 ++ (escapeChars m.content.data ++ ('"' :: ('\x7d' :: k)))))) := by
    simp [marshalMessage, midTag, List.append_assoc]
  rw [hshape]
  unfold parseMessage
  simp only [expectChars_append, parseQuoted_escapeChars, hbr, stringMk_data]

lemma marshalMessage_cons (m : Message) (k : List Char) :
    marshalMessage m ++ k =
      '\x7b' :: '"' :: 'r' :: 'o' :: 'l' :: 'e' :: '"' :: ':' :: '"' ::
        (escapeChars m.role.data ++ (midTag ++ (escapeChars m.content.data ++
          '"' :: '\x7d' :: k))) := by
  simp [marshalMessage, roleTag, List.append_assoc]

lemma parseItems_marshal : ∀ (ms : List Message) (fuel : Nat) (k : List Char),
    ms.length < fuel →
    parseItems fuel (marshalItems ms ++ k) = some (ms, k) := by
  intro ms
  induction ms with
  | nil =>
    intro fuel k hf
    match fuel, hf with
    | fuel + 1, _ =>
      show parseItems (fuel + 1) (']' :: k) = some ([], k)
      unfold parseItems
      simp only [Char.reduceEq, reduceIte]
  | cons m rest ih =>
    intro fuel k hf
    match fuel, hf with
    | fuel + 1, hf1 =>
      cases rest with
      | nil =>
        have h1 : marshalItems [m] ++ k = marshalMessage m ++ (']' :: k) := by
          simp [marshalItems]
        rw [h1, marshalMessage_cons]
        unfold parseItems
        simp only [Char.reduceEq, reduceIte]
        rw [← marshalMessage_cons, parseMessage_marshal]
        simp only [Char.reduceEq, reduceIte]
      | cons m2 rest2 =>
        have h1 : marshalItems (m :: m2 :: rest2) ++ k =
            marshalMessage m ++ (',' :: (marshalItems (m2 :: rest2) ++ k)) := by
          simp [marshalItems]
        rw [h1, marshalMessage_cons]
        unfold parseItems
        simp only [Char.reduceEq, reduceIte]
        rw [← marshalMessage_cons, parseMessage_marshal]
        simp only [Char.reduceEq, reduceIte]
        rw [ih fuel k (by simp only [List.length_cons] at hf1 ⊢; omega)]

lemma marshalItems_length_ge : ∀ ms : List Message,
    ms.length ≤ (marshalItems ms).length := by
  intro ms
  induction ms with
  | nil => simp [marshalItems]
  | cons m rest ih =>
    cases rest with
    | nil => simp [marshalItems]
    | cons m2 rest2 =>
      show (m :: m2 :: rest2).length ≤ (marshalMessage m ++ ',' :: marshalItems (m2 :: rest2)).length
      simp only [List.length_cons, List.length_append] at ih ⊢
      omega

lemma jsonParse_marshalMessages (ms : List Message) :
    jsonParse (marshalMessages ms) = some (ms, []) := by
  show jsonParse ('[' :: marshalItems ms) = _
  unfold jsonParse
  simp only [Char.reduceEq, reduceIte]
  have h := parseItems_marshal ms ((marshalItems ms).length + 1) []
    (by have := marshalItems_length_ge ms; omega)
  rw [List.append_nil] at h
  exact h

lemma marshalMessages_inj {m₁ m₂ : List Message}
    (h : marshalMessages m₁ = marshalMessages m₂) : m₁ = m₂ := by
  have h1 := jsonParse_marshalMessages m₁
  rw [h, jsonParse_marshalMessages m₂] at h1
  have h2 : (m₂, ([] : List Char)) = (m₁, []) := Option.some.inj h1
  exact (congrArg Prod.fst h2).symm

lemma sha256Bytes_length (msg : List Nat) : (sha256Bytes msg).length = 32 := by
  simp [sha256Bytes, wordBytes]

lemma sha256Bytes_lt (msg : List Nat) : ∀ b ∈ sha256Bytes msg, b < 256 := by
  intro b hb
  simp only [sha256Bytes, wordBytes, List.mem_append, List.mem_cons,
    List.not_mem_nil, or_false] at hb
  omega

lemma natOfBytes_lt : ∀ l : List Nat, (∀ b ∈ l, b < 256) →
    natOfBytes l < 256 ^ l.length := by
  intro l
  induction l with
  | nil => intro _; simp [natOfBytes]
  | cons b t ih =>
    intro hb
    have h1 : b < 256 := hb b (by simp)
    have h2 : natOfBytes t < 256 ^ t.length := ih (fun x hx => hb x (by simp [hx]))
    have h3 : b + 256 * natOfBytes t < 256 * (natOfBytes t + 1) := by omega
    have h4 : 256 * (natOfBytes t + 1) ≤ 256 * 256 ^ t.length :=
      Nat.mul_le_mul_left _ h2
    calc natOfBytes (b :: t) = b + 256 * natOfBytes t := rfl
      _ < 256 * (natOfBytes t + 1) := h3
      _ ≤ 256 * 256 ^ t.length := h4
      _ = 256 ^ (b :: t).length := by rw [List.length_cons, pow_succ, Nat.mul_comm]

lemma natOfBytes_inj : ∀ (l₁ l₂ : List Nat), l₁.length = l₂.length →
    (∀ b ∈ l₁, b < 256) → (∀ b ∈ l₂, b < 256) →
    natOfBytes l₁ = natOfBytes l₂ → l₁ = l₂ := by
  intro l₁
  induction l₁ with
  | nil =>
    intro l₂ hlen _ _ _
    cases l₂ with
    | nil => rfl
    | cons c u => simp at hlen
  | cons b t ih =>
    intro l₂ hlen hb1 hb2 heq
    cases l₂ with
    | nil => simp at hlen
    | cons c u =>
      simp only [natOfBytes] at heq
      have hb : b < 256 := hb1 b (by simp)
      have hc : c < 256 := hb2 c (by simp)
      have hbc : b = c ∧ natOfBytes t = natOfBytes u := by omega
      rw [hbc.1, ih u (by simpa using hlen) (fun x hx => hb1 x (by simp [hx]))
        (fun x hx => hb2 x (by simp [hx])) hbc.2]

lemma hexPairs_inj : ∀ (l₁ l₂ : List Nat),
    (∀ b ∈ l₁, b < 256) → (∀ b ∈ l₂, b < 256) →
    l₁.flatMap (fun b => [hexDigitChar (b / 16), hexDigitChar (b % 16)]) =
      l₂.flatMap (fun b => [hexDigitChar (b / 16), hexDigitChar (b % 16)]) →
    l₁ = l₂ := by
  intro l₁
  induction l₁ with
  | nil =>
    intro l₂ _ _ h
    cases l₂ with
    | nil => rfl
    | cons c u => simp at h
  | cons b t ih =>
    intro l₂ hb1 hb2 h
    cases l₂ with
    | nil => simp at h
    | cons c u =>
      simp only [List.flatMap_cons, List.cons_append, List.nil_append,
        List.cons.injEq] at h
      obtain ⟨h1, h2, h3⟩ := h
      have hb : b < 256 := hb1 b (by simp)
      have hc : c < 256 := hb2 c (by simp)
      have e1 : b / 16 = c / 16 := by
        have he := congrArg hexVal h1
        rwa [hexVal_hexDigitChar _ (by omega), hexVal_hexDigitChar _ (by omega)] at he
      have e2 : b % 16 = c % 16 := by
        have he := congrArg hexVal h2
        rwa [hexVal_hexDigitChar _ (by omega), hexVal_hexDigitChar _ (by omega)] at he
      have hbc : b = c := by omega
      rw [hbc, ih u (fun x hx => hb1 x (by simp [hx]))
        (fun x hx => hb2 x (by simp [hx])) h3]

lemma hexEncode_inj {l₁ l₂ : List Nat} (hb1 : ∀ b ∈ l₁, b < 256)
    (hb2 : ∀ b ∈ l₂, b < 256) (h : hexEncode l₁ = hexEncode l₂) : l₁ = l₂ := by
  unfold hexEncode at h
  have hdata := congrArg String.data h
  exact hexPairs_inj l₁ l₂ hb1 hb2 hdata

lemma string_append_cancel {s t₁ t₂ : String} (h : s ++ t₁ = s ++ t₂) : t₁ = t₂ := by
  have hd := congrArg String.data h
  simp only [String.data_append] at hd
  have hc := List.append_cancel_left hd
  cases t₁
  cases t₂
  exact congrArg String.mk hc

/-- Counterexample to claim C8 as stated: its final conjunct — any change
to role, content, or order changes the key — cannot hold universally,
because keys range over a finite set (a 256-bit digest in fixed-width
hex) while contents range over an infinite set, so two distinct
single-message contents must share a key. The collision is produced
nonconstructively by pigeonhole over the digest space. -/
theorem claim8_counterexample :
    ¬ (∀ c₁ c₂ : String,
        getCacheKey [⟨"user", c₁⟩] = getCacheKey [⟨"user", c₂⟩] → c₁ = c₂) := by
  intro hinj
  obtain ⟨m, n, hmn, heq⟩ := Finite.exists_ne_map_eq_of_infinite
    (fun j : Nat => sha256Fin (charsBytes (marshalMessages
      [⟨"user", String.mk (List.replicate j 'a')⟩])))
  have hbound : ∀ x : List Nat, natOfBytes (sha256Bytes x) < 2 ^ 256 := by
    intro x
    have h1 := natOfBytes_lt (sha256Bytes x) (sha256Bytes_lt x)
    rw [sha256Bytes_length] at h1
    calc natOfBytes (sha256Bytes x) < 256 ^ 32 := h1
      _ = 2 ^ 256 := by norm_num
  have hv := congrArg Fin.val heq
  simp only [sha256Fin] at hv
  rw [Nat.mod_eq_of_lt (hbound _), Nat.mod_eq_of_lt (hbound _)] at hv
  have hbytes := natOfBytes_inj _ _
    (by rw [sha256Bytes_length, sha256Bytes_length])
    (sha256Bytes_lt _) (sha256Bytes_lt _) hv
  have hkeys : getCacheKey [⟨"user", String.mk (List.replicate m 'a')⟩] =
      getCacheKey [⟨"user", String.mk (List.replicate n 'a')⟩] := by
    unfold getCacheKey
    rw [hbytes]
  have hstr := hinj _ _ hkeys
  have hlen := congrArg (fun s : String => s.data.length) hstr
  simp only [List.length_replicate] at hlen
  exact hmn hlen

/-- Claim C8, amended: `getCacheKey` is the fixed namespace tag
`token_count:` followed by the hex SHA-256 digest of the JSON
serialization of the ordered roles and contents (first conjunct); that
serialization is unambiguous — no two distinct message sequences
serialize identically (second conjunct); and two sequences receive the
same key exactly when their serializations have the same SHA-256 digest,
so the key is a pure function of the ordered sequence and any change to
role, content, or order changes the key unless it produces a SHA-256
collision — which, the digest being finite, must exist (third
conjunct and the counterexample). -/
theorem claim8_cache_key_amended :
    (∀ messages : List Message,
      getCacheKey messages =
        "token_count:" ++
          hexEncode (sha256Bytes (charsBytes (marshalMessages messages)))) ∧
    (∀ m₁ m₂ : List Message, marshalMessages m₁ = marshalMessages m₂ → m₁ = m₂) ∧
    (∀ m₁ m₂ : List Message,
      getCacheKey m₁ = getCacheKey m₂ ↔
        sha256Bytes (charsBytes (marshalMessages m₁)) =
          sha256Bytes (charsBytes (marshalMessages m₂))) := by
  refine ⟨fun _ => rfl, fun m₁ m₂ h => marshalMessages_inj h, ?_⟩
  intro m₁ m₂
  constructor
  · intro h
    unfold getCacheKey at h
    exact hexEncode_inj (sha256Bytes_lt _) (sha256Bytes_lt _) (string_append_cancel h)
  · intro h
    unfold getCacheKey
    rw [h]

/-- Witness for the amended claim C8: serialization unambiguity applied
at a concrete pair of equal serializations, evaluated by `rfl`. -/
theorem claim8_witness : ([⟨"user", "Hi"⟩] : List Message) = [⟨"user", "Hi"⟩] :=
  claim8_cache_key_amended.2.1 [⟨"user", "Hi"⟩] [⟨"user", "Hi"⟩] rfl
